import Mathlib

/-!
Verification development for the dy-sql repository (adobe/dy-sql).

The file shallowly embeds the two engines of the library:

* `dysql/query_utils.py`: the list/tuple template expander
  (`TemplateGenerators`, `__validate_keys_clean_query`, `get_query_data`),
  including a faithful character-level model of the module's
  `LIST_TEMPLATE_REGEX` scanning (`re.findall`) and of Python's
  `str.replace` / `str.strip` / `str.split('__')`.

* `dysql/mappers.py` and `dysql/pydantic_mappers.py`: the row mappers
  (`RecordCombiningMapper`, `SingleRowMapper`, `DbMapResult`,
  `DbMapResultModel`).

Python strings are modelled as `List Char`; Python values as the inductive
`Value`; Python dicts as insertion-ordered association lists with
update-in-place semantics; raised exceptions as `Except PyErr`.
Recursive scanning functions are written with an explicit fuel argument
(always called with enough fuel) so that all definitions compute by kernel
reduction.
-/

namespace DySql

/-! ## Character classes and small string utilities -/

/-- Characters matched by `[A-Za-z_]` in `LIST_TEMPLATE_REGEX`. -/
def wordChar (c : Char) : Bool :=
  (('A' ≤ c ∧ c ≤ 'Z') ∨ ('a' ≤ c ∧ c ≤ 'z') ∨ c = '_')

/-- Decimal digit characters. -/
def digChar (c : Char) : Bool :=
  '0' ≤ c ∧ c ≤ '9'

/-- The decimal digit character for `d % 10`, written by explicit cases so
that every statement about it reduces by `decide`. -/
def digitChar (d : Nat) : Char :=
  match d with
  | 0 => '0' | 1 => '1' | 2 => '2' | 3 => '3' | 4 => '4'
  | 5 => '5' | 6 => '6' | 7 => '7' | 8 => '8' | _ => '9'

/-- Fuelled decimal rendering of a natural number, mirroring Python's
`str(index)`.  `natCharsF (n+1) n` always has enough fuel. -/
def natCharsF : Nat → Nat → List Char
  | 0, _ => []
  | f + 1, n =>
    if n < 10 then [digitChar n]
    else natCharsF f (n / 10) ++ [digitChar (n % 10)]

/-- Decimal rendering of `n`, as Python's `str(n)` for a nonnegative index. -/
def natChars (n : Nat) : List Char :=
  natCharsF (n + 1) n

/-- Python's `key.replace('.', '_')` on a string. -/
def collapseDots (cs : List Char) : List Char :=
  cs.map fun c => if c = '.' then '_' else c

/-- Python whitespace, as far as `str.strip` is concerned. -/
def pyWs (c : Char) : Bool :=
  c = ' ' ∨ c = '\t' ∨ c = '\n' ∨ c = '\r' ∨ c = '\x0b' ∨ c = '\x0c'

/-- Python's `s.strip()`. -/
def pyStrip (cs : List Char) : List Char :=
  ((cs.dropWhile pyWs).reverse.dropWhile pyWs).reverse

/-- Python's `s.split('__')` (leftmost, non-overlapping). -/
def splitDunder : List Char → List (List Char)
  | [] => [[]]
  | '_' :: '_' :: rest => [] :: splitDunder rest
  | c :: rest =>
    match splitDunder rest with
    | [] => [[c]]
    | w :: ws => (c :: w) :: ws

/-- Python's `', '.join(pieces)`. -/
def joinCommaSpace : List (List Char) → List Char
  | [] => []
  | [w] => w
  | w :: ws => w ++ ',' :: ' ' :: joinCommaSpace ws

/-- Python's `', :'.join(pieces)`. -/
def joinCommaColon : List (List Char) → List Char
  | [] => []
  | [w] => w
  | w :: ws => w ++ ',' :: ' ' :: ':' :: joinCommaColon ws

/-- Boolean "p is a leading segment of s" test (Python `str.startswith`). -/
def isPfx : List Char → List Char → Bool
  | [], _ => true
  | _ :: _, [] => false
  | p :: ps, c :: cs => p = c ∧ isPfx ps cs

/-- `p` occurs at the front of `s`. -/
def Pfx (p s : List Char) : Prop :=
  ∃ t, p ++ t = s

/-- `p` occurs at the end of `s`. -/
def Sfx (p s : List Char) : Prop :=
  ∃ t, t ++ p = s

/-- `t` occurs somewhere inside `s` (substring occurrence). -/
def Sub (t s : List Char) : Prop :=
  ∃ a b, a ++ t ++ b = s

/-! ## Python values

`Value` models the Python values that flow through the library: `None`,
ints, bools, strings, lists, tuples, sets and dicts.  `truthy` models
Python truthiness for these; `pyEq` models Python `==` (with the int/bool
identification); `pyLen` models `len`. -/

inductive Value where
  | vnone : Value
  | vint (n : Int) : Value
  | vbool (b : Bool) : Value
  | vstr (s : List Char) : Value
  | vlist (l : List Value) : Value
  | vtuple (l : List Value) : Value
  | vset (l : List Value) : Value
  | vdict (l : List (Value × Value)) : Value

open Value

/-- Python truthiness of a `Value`. -/
def truthy : Value → Bool
  | vnone => false
  | vint n => n ≠ 0
  | vbool b => b
  | vstr s => s ≠ []
  | vlist l => !l.isEmpty
  | vtuple l => !l.isEmpty
  | vset l => !l.isEmpty
  | vdict l => !l.isEmpty

/-- Numeric view used by Python `==` across `int`/`bool`. -/
def numView : Value → Option Int
  | vint n => some n
  | vbool b => some (if b then 1 else 0)
  | _ => none

/-- Python `==` on the modelled values.  Ints and bools compare
numerically (`0 == False`, `1 == True`); container types compare
structurally within their own type. -/
def pyEq : Value → Value → Bool
  | vnone, vnone => true
  | vstr s, vstr t => s = t
  | vlist l, vlist m => pyEqList l m
  | vtuple l, vtuple m => pyEqList l m
  | vset l, vset m => pyEqList l m
  | vdict l, vdict m => pyEqPairs l m
  | a, b =>
    match numView a, numView b with
    | some m, some n => m = n
    | _, _ => false
where
  pyEqList : List Value → List Value → Bool
    | [], [] => true
    | a :: l, b :: m => pyEq a b && pyEqList l m
    | _, _ => false
  pyEqPairs : List (Value × Value) → List (Value × Value) → Bool
    | [], [] => true
    | (ka, va) :: l, (kb, vb) :: m => pyEq ka kb && pyEq va vb && pyEqPairs l m
    | _, _ => false

/-- Python `len` where defined (`TypeError` otherwise, hence `Option`). -/
def pyLen : Value → Option Nat
  | vstr s => some s.length
  | vlist l => some l.length
  | vtuple l => some l.length
  | vset l => some l.length
  | vdict l => some l.length
  | _ => none

/-! ## Insertion-ordered dictionaries

Python dicts keep insertion order and update keys in place.  Keys of the
template-parameter dictionaries are strings (`List Char`); the
record-combining mapper needs dictionaries keyed by arbitrary values
compared with `pyEq`, so the operations take the equality test as an
argument. -/

/-- Lookup by the given equality test (first, i.e. unique, matching key). -/
def aGet (eq : κ → κ → Bool) (d : List (κ × α)) (k : κ) : Option α :=
  match d with
  | [] => none
  | (k', v) :: rest => if eq k' k then some v else aGet eq rest k

/-- Assignment `d[k] = v`: update in place if a matching key exists,
otherwise append (Python dict semantics). -/
def aSet (eq : κ → κ → Bool) (d : List (κ × α)) (k : κ) (v : α) : List (κ × α) :=
  match d with
  | [] => [(k, v)]
  | (k', v') :: rest =>
    if eq k' k then (k', v) :: rest else (k', v') :: aSet eq rest k v

/-- `d.pop(k, None)`: remove a matching key if present. -/
def aPop (eq : κ → κ → Bool) (d : List (κ × α)) (k : κ) : List (κ × α) :=
  match d with
  | [] => []
  | (k', v') :: rest =>
    if eq k' k then rest else (k', v') :: aPop eq rest k

/-- String keys compare with ordinary equality. -/
def skey (a b : List Char) : Bool := a = b

/-- A parameter dictionary of the expander: string keys to values. -/
abbrev PDict := List (List Char × Value)

/-- The ordered log of `param_values[name] = value` assignments a template
generator performs.  The resulting Python dict is `replayDict` of the log;
the generated bind-parameter names are `map Prod.fst` of the log. -/
abbrev PLog := List (List Char × Value)

/-- Replay an assignment log into a dict (later assignments win, first
insertion fixes position). -/
def replayDict (log : PLog) : PDict :=
  log.foldl (fun d kv => aSet skey d kv.1 kv.2) []

/-! ## Exceptions of the query path -/

/-- Exceptions the query-utils path can raise.  Both `listTemplateMissing`
and `listTemplateMsg` stand for `ListTemplateException`; the first carries
the list interpolated into `'Missing template keys {missing_keys}'`, the
second the message of `'Must have values for {name} template'`. -/
inductive PyErr where
  | listTemplateMissing (keys : List (List Char)) : PyErr
  | listTemplateMsg (msg : List Char) : PyErr
  | typeError : PyErr
  | valueError : PyErr
  | keyError : PyErr
deriving DecidableEq, Repr

/-! ## TemplateGenerators (dysql/query_utils.py) -/

namespace TemplateGenerators

/-- `TemplateGenerators._get_key`. -/
def get_key (key : List Char) (legacy_key : Option (List Char))
    (is_multi_column : Bool) : List Char :=
  let key_name :=
    match legacy_key with
    | some l => if l ≠ [] then l else key
    | none => key
  if is_multi_column then
    key_name.filter fun c => ¬ (c = ',' ∨ c = ' ' ∨ c = '(' ∨ c = ')')
  else key_name

/-- `TemplateGenerators._parameterize_inner_list`: returns the fragment
`"( :k0, :k1 )"` together with the ordered assignment log. -/
def parameterize_inner_list (key : List Char) (vals : Value) :
    List Char × PLog :=
  let pks_log : List (List Char) × PLog :=
    match vals with
    | vlist l => go l
    | vtuple l => go l
    | v => ([key], [(key, v)])
  ('(' :: ' ' :: ':' :: joinCommaColon pks_log.1 ++ [' ', ')'], pks_log.2)
where
  /-- One parameterized key per element: `key.replace('.','_') + '_' + str(i)`. -/
  go (l : List Value) : List (List Char) × PLog :=
    let named := l.enum.map fun iv =>
      (collapseDots key ++ '_' :: natChars iv.1, iv.2)
    (named.map Prod.fst, named)

/-- `TemplateGenerators._parameterize_list`.  Errors model Python
exceptions: iterating a non-iterable raises `TypeError`. -/
def parameterize_list (key : List Char) (vals : Value) :
    Except PyErr (List Char × PLog) :=
  let vals' := match vals with
    | vstr s => vtuple [vstr s]
    | v => v
  match vals' with
  | vlist l => go vals' l 0 [] []
  | vtuple l => go vals' l 0 [] []
  | _ => .error .typeError
where
  /-- The enumerate loop; an early non-tuple element (for a non-`values`
  key) discards the accumulator and parameterizes the whole list. -/
  go (whole : Value) : List Value → Nat → PLog → List (List Char) →
      Except PyErr (List Char × PLog)
    | [], _, log, pks => .ok (joinCommaSpace pks, log)
    | v :: rest, i, log, pks =>
      let isTup := match v with | vtuple _ => true | _ => false
      if isTup || isPfx ['v', 'a', 'l', 'u', 'e', 's'] key then
        let inner := parameterize_inner_list (key ++ '_' :: natChars i) v
        go whole rest (i + 1) (log ++ inner.2) (pks ++ [inner.1])
      else
        .ok (parameterize_inner_list key whole)

/-- `TemplateGenerators.in_column`. -/
def in_column (name : List Char) (vals : Value)
    (legacy_key : Option (List Char) := none)
    (is_multi_column : Bool := false) :
    Except PyErr (List Char × Option PLog) :=
  if truthy vals = false then
    .ok ("1 <> 1".data, none)
  else
    match parameterize_list (get_key name legacy_key is_multi_column) vals with
    | .error e => .error e
    | .ok (keys, log) =>
      .ok (name ++ ' ' :: 'I' :: 'N' :: ' ' ::
        (if is_multi_column then '(' :: keys ++ [')'] else keys), some log)

/-- `TemplateGenerators.not_in_column`. -/
def not_in_column (name : List Char) (vals : Value)
    (legacy_key : Option (List Char) := none)
    (is_multi_column : Bool := false) :
    Except PyErr (List Char × Option PLog) :=
  if truthy vals = false then
    .ok ("1 = 1".data, none)
  else
    match parameterize_list (get_key name legacy_key is_multi_column) vals with
    | .error e => .error e
    | .ok (keys, log) =>
      .ok (name ++ ' ' :: 'N' :: 'O' :: 'T' :: ' ' :: 'I' :: 'N' :: ' ' ::
        (if is_multi_column then '(' :: keys ++ [')'] else keys), some log)

/-- `TemplateGenerators.values`. -/
def values (name : List Char) (vals : Value)
    (legacy_key : Option (List Char) := none) :
    Except PyErr (List Char × Option PLog) :=
  if truthy vals = false then
    .error (.listTemplateMsg ("Must have values for ".data ++ name ++ " template".data))
  else
    match parameterize_list (get_key name legacy_key false) vals with
    | .error e => .error e
    | .ok (keys, log) => .ok ("VALUES ".data ++ keys, some log)

/-- `TemplateGenerators.get_template` fused with the call it feeds in
`get_query_data`: dispatch on the template keyword and call the generator
(calling `None` would be a `TypeError`). -/
def runTemplate (kind : List Char) (name : List Char) (vals : Value)
    (legacy_key : Option (List Char)) :
    Except PyErr (List Char × Option PLog) :=
  if kind = "in".data then in_column name vals legacy_key false
  else if kind = "not_in".data then not_in_column name vals legacy_key false
  else if kind = "values".data then values name vals legacy_key
  else .error .typeError

end TemplateGenerators

/-! ## The template scanner (`LIST_TEMPLATE_REGEX` + `re.findall`)

`LIST_TEMPLATE_REGEX` is
`(( +)?{(in|not_in|values)__([A-Za-z_]+\.)?([A-Za-z_]+)}( +)?)`.
`matchAt` tries to match it at the head of the character list (greedy
space runs; the alternation is deterministic because the three keywords
start with distinct letters, and a maximal `[A-Za-z_]` run followed by the
required `.`/`}` is the only way the groups can succeed).  `scanF` mirrors
`re.findall`: try each position left to right, resume after the end of a
match (non-overlapping). -/

/-- Template keyword of a token. -/
inductive TKind where
  | tin : TKind
  | tnotin : TKind
  | tvalues : TKind
deriving DecidableEq, Repr

/-- Characters of a template keyword. -/
def TKind.chars : TKind → List Char
  | .tin => ['i', 'n']
  | .tnotin => ['n', 'o', 't', '_', 'i', 'n']
  | .tvalues => ['v', 'a', 'l', 'u', 'e', 's']

/-- One regex match: the two space groups, the keyword, the optional
qualifier (without its trailing dot) and the column. -/
structure MatchT where
  sp1 : List Char
  kind : TKind
  qual : Option (List Char)
  col : List Char
  sp2 : List Char
deriving DecidableEq, Repr

/-- The characters between the braces: `kind__[qualifier.]column`.  This
is also the template key `'{groups[2]}__{groups[3] or ""}{groups[4]}'`
built by `__validate_keys_clean_query`. -/
def MatchT.key (m : MatchT) : List Char :=
  m.kind.chars ++ '_' :: '_' ::
    (match m.qual with
     | some q => q ++ ['.']
     | none => []) ++ m.col

/-- The token literal `{kind__[qualifier.]column}`. -/
def MatchT.tok (m : MatchT) : List Char :=
  '{' :: m.key ++ ['}']

/-- Group 0 of the match: optional spaces, token, optional spaces. -/
def MatchT.g0 (m : MatchT) : List Char :=
  m.sp1 ++ m.tok ++ m.sp2

/-- Parse `kind__` at the head of the list. -/
def kindAt (cs : List Char) : Option (TKind × List Char) :=
  if isPfx "in__".data cs then some (.tin, cs.drop 4)
  else if isPfx "not_in__".data cs then some (.tnotin, cs.drop 8)
  else if isPfx "values__".data cs then some (.tvalues, cs.drop 8)
  else none

/-- Try to match `LIST_TEMPLATE_REGEX` at the head of `cs`; on success
return the match and the remaining characters. -/
def matchAt (cs : List Char) : Option (MatchT × List Char) :=
  match cs.dropWhile (· = ' ') with
  | '{' :: r2 =>
    match kindAt r2 with
    | some (k, r3) =>
      if r3.takeWhile wordChar = [] then none
      else
        match r3.dropWhile wordChar with
        | '.' :: r4 =>
          if r4.takeWhile wordChar = [] then none
          else
            match r4.dropWhile wordChar with
            | '}' :: r5 =>
              some (⟨cs.takeWhile (· = ' '), k, some (r3.takeWhile wordChar),
                r4.takeWhile wordChar, r5.takeWhile (· = ' ')⟩,
                r5.dropWhile (· = ' '))
            | _ => none
        | '}' :: r4 =>
          some (⟨cs.takeWhile (· = ' '), k, none, r3.takeWhile wordChar,
            r4.takeWhile (· = ' ')⟩, r4.dropWhile (· = ' '))
        | _ => none
    | none => none
  | _ => none

/-- Fuelled `re.findall` scan. -/
def scanF : Nat → List Char → List MatchT
  | 0, _ => []
  | f + 1, cs =>
    match matchAt cs with
    | some (m, rest) => m :: scanF f rest
    | none =>
      match cs with
      | [] => []
      | _ :: t => scanF f t

/-- All matches of `LIST_TEMPLATE_REGEX` in `cs`, left to right,
non-overlapping (`re.findall(LIST_TEMPLATE_REGEX, cs)`). -/
def scan (cs : List Char) : List MatchT :=
  scanF (cs.length + 1) cs

/-! ## Python `str.replace` -/

/-- Fuelled Python `s.replace(p, r)` (leftmost, non-overlapping, all
occurrences).  Only used with a nonempty pattern. -/
def replaceAllF : Nat → List Char → List Char → List Char → List Char
  | 0, s, _, _ => s
  | f + 1, s, p, r =>
    if p ≠ [] ∧ isPfx p s then r ++ replaceAllF f (s.drop p.length) p r
    else
      match s with
      | [] => []
      | c :: t => c :: replaceAllF f t p r

/-- Python's `s.replace(p, r)` for a nonempty pattern `p`. -/
def replaceAll (s p r : List Char) : List Char :=
  replaceAllF (s.length + 1) s p r

/-! ## QueryData and get_query_data (dysql/query_utils.py) -/

/-- `QueryData`: the SQL text, the literal query parameters and the
template parameters.  (`query_params` may also be a list of dicts for
`executemany`; that variant never reaches the template expander and is
not modelled.) -/
structure QueryData where
  query : List Char
  query_params : Option PDict := none
  template_params : Option PDict := none

/-- `template_params.get(key) is None`: the key is absent or maps to
`None`. -/
def tpMissing (tp : Option PDict) (key : List Char) : Bool :=
  match tp with
  | none => true
  | some d =>
    match aGet skey d key with
    | none => true
    | some Value.vnone => true
    | some _ => false

/-- `__validate_keys_clean_query`: walk the matches found in the original
query, collect every key, raise on a missing key (the dead
`key == 'values'` branch is kept faithfully, including the `TypeError`
that `len` of an unsized value would raise), and strip the captured
padding of each match from the working query. -/
def validateKeysCleanQuery (query : List Char) (tp : Option PDict) :
    Except PyErr (List Char × List (List Char)) :=
  go (scan query) query []
where
  go : List MatchT → List Char → List (List Char) →
      Except PyErr (List Char × List (List Char))
    | [], q, validated => .ok (q, validated)
    | m :: rest, q, validated =>
      let key := m.key
      let validated := validated ++ [key]
      let missing : Except PyErr (List (List Char)) :=
        if tpMissing tp key then .ok [key]
        else if key = "values".data then
          match pyLen ((aGet skey (tp.getD []) key).getD Value.vnone) with
          | some 0 => .ok [key]
          | some _ => .ok []
          | none => .error .typeError
        else .ok []
      match missing with
      | .error e => .error e
      | .ok missing =>
        if missing ≠ [] then .error (.listTemplateMissing missing)
        else go rest (replaceAll q m.g0 (pyStrip m.g0)) validated

/-- The expansion loop of `get_query_data`: for each validated key, split
it on `'__'` (a `ValueError` if the destructuring into exactly two parts
fails), look up and run the template generator with `legacy_key=key`,
append its assignment log when truthy, and splice `' ' + fragment + ' '`
over every occurrence of `'{key}'`. -/
def expandLoop (tp : Option PDict) :
    List (List Char) → List Char → PLog → Except PyErr (List Char × PLog)
  | [], q, log => .ok (q, log)
  | key :: rest, q, log =>
    match splitDunder key with
    | [kind, column] =>
      match (match tp with
             | none => .error PyErr.keyError
             | some d =>
               match aGet skey d key with
               | none => .error PyErr.keyError
               | some v => .ok v : Except PyErr Value) with
      | .error e => .error e
      | .ok v =>
        match TemplateGenerators.runTemplate kind column v (some key) with
        | .error e => .error e
        | .ok (frag, pd) =>
          let add := match pd with
            | some l => if l.isEmpty then [] else l
            | none => []
          expandLoop tp rest
            (replaceAll q ('{' :: key ++ ['}']) (' ' :: frag ++ [' ']))
            (log ++ add)
    | _ => .error .valueError

/-- `get_query_data`: validate and clean, seed the parameters from truthy
`query_params`, expand every validated key, and return the final text and
the replayed parameter dictionary. -/
def getQueryData (data : QueryData) : Except PyErr (List Char × PDict) :=
  match validateKeysCleanQuery data.query data.template_params with
  | .error e => .error e
  | .ok (q, validated) =>
    let log0 : PLog :=
      match data.query_params with
      | some ps => if ps.isEmpty then [] else ps
      | none => []
    match expandLoop data.template_params validated q log0 with
    | .error e => .error e
    | .ok (q', log) => .ok (q', replayDict log)

/-- First-seen-order deduplication (used to speak about the distinct
template tokens of a query). -/
def uniqAux [DecidableEq α] : List α → List α → List α
  | [], _ => []
  | x :: xs, seen => if x ∈ seen then uniqAux xs seen else x :: uniqAux xs (x :: seen)

/-- The distinct elements of a list, first occurrences first. -/
def uniq [DecidableEq α] (l : List α) : List α :=
  uniqAux l []

/-- The distinct validated template keys of a query (the distinct tokens
found by the scanner, in first-seen order), when validation succeeds. -/
def validatedUniqKeys (data : QueryData) : Except PyErr (List (List Char)) :=
  match validateKeysCleanQuery data.query data.template_params with
  | .error e => .error e
  | .ok (_, validated) => .ok (uniq validated)

/-- The bind-parameter names generated for one validated key, in
generation order: the keys of the assignment log of its generator run. -/
def namesForKey (tp : Option PDict) (key : List Char) :
    Except PyErr (List (List Char)) :=
  match splitDunder key with
  | [kind, column] =>
    match (match tp with
           | none => .error PyErr.keyError
           | some d =>
             match aGet skey d key with
             | none => .error PyErr.keyError
             | some v => .ok v : Except PyErr Value) with
    | .error e => .error e
    | .ok v =>
      match TemplateGenerators.runTemplate kind column v (some key) with
      | .error e => .error e
      | .ok (_, pd) => .ok ((pd.getD []).map Prod.fst)
  | _ => .error .valueError

/-- All bind-parameter names `get_query_data` generates for the distinct
template tokens of a query, concatenated in token order. -/
def templateGeneratedNames (data : QueryData) :
    Except PyErr (List (List Char)) :=
  match validatedUniqKeys data with
  | .error e => .error e
  | .ok keys => go keys
where
  go : List (List Char) → Except PyErr (List (List Char))
    | [] => .ok []
    | k :: ks =>
      match namesForKey data.template_params k with
      | .error e => .error e
      | .ok ns =>
        match go ks with
        | .error e => .error e
        | .ok rest => .ok (ns ++ rest)

/-! ## Row mappers (dysql/mappers.py)

A database row is an ordered list of named columns.  `DbMapResult` is its
`__dict__`, an insertion-ordered string-keyed dictionary. -/

/-- A result row (`sqlalchemy.engine.Row`): ordered named columns. -/
abbrev Row := List (String × Value)

/-- The `__dict__` of a `DbMapResult`. -/
abbrev DbRes := List (String × Value)

/-- String equality test for the string-keyed dictionaries. -/
def sEq (a b : String) : Bool := a = b

/-- `field in record`. -/
def rowHas (r : Row) (f : String) : Bool :=
  r.any fun kv => sEq kv.1 f

/-- `record[field]` as an option (first matching column). -/
def rowGet? (r : Row) (f : String) : Option Value :=
  aGet sEq r f

/-- `DbMapResult.__init__(**kwargs)`: adopt the kwargs as `__dict__`, and
if `id` is missing or falsy set `self.id = None`. -/
def dbInit (kwargs : DbRes) : DbRes :=
  if truthy ((aGet sEq kwargs "id").getD Value.vnone) then kwargs
  else aSet sEq kwargs "id" Value.vnone

/-- `DbMapResult.create_instance()` (the constructor with no kwargs). -/
def dbNew : DbRes := dbInit []

/-- `DbMapResult.map_record`: assign every column of the record. -/
def dbMapRecord (res : DbRes) (r : Row) : DbRes :=
  r.foldl (fun d kv => aSet sEq d kv.1 kv.2) res

/-- `DbMapResult.raw()`.  The stored values here are plain `Value`s (no
nested mapped results), so the per-value `get_raw` conversion is the
identity; what remains is the id-key handling: `del raw['id']` when
`raw.get('id') is None`, which is a `KeyError` when the key is absent. -/
def dbRaw (d : DbRes) : Except String DbRes :=
  match aGet sEq d "id" with
  | some Value.vnone => .ok (aPop sEq d "id")
  | some _ => .ok d
  | none => .error "KeyError"

/-- `RecordCombiningMapper.map_records` with the default `DbMapResult`
record mapper.  `current_results` is an insertion-ordered dictionary whose
keys are either row `id` values or the integer counter assigned to rows
without an `id` column; Python compares these keys with `==`, modelled by
`pyEq` (so the counter key `n` and a row id equal to the integer `n`
collide, and assignment to an existing key overwrites in place). -/
def mapRecordsCombining (rows : List Row) : List DbRes :=
  go rows [] 0
where
  go : List Row → List (Value × DbRes) → Nat → List DbRes
    | [], acc, _ => acc.map Prod.snd
    | r :: rest, acc, n =>
      if rowHas r "id" then
        let rid := (rowGet? r "id").getD Value.vnone
        let cur := (aGet pyEq acc rid).getD dbNew
        go rest (aSet pyEq acc rid (dbMapRecord cur r)) n
      else
        go rest (aSet pyEq acc (Value.vint n) (dbMapRecord dbNew r)) (n + 1)

/-- `SingleRowMapper.map_records` with the default `DbMapResult` record
mapper: map the first record and return immediately; `None` when the row
sequence is empty. -/
def mapRecordsSingleRow : List Row → Option DbRes
  | [] => none
  | r :: _ => some (dbMapRecord dbNew r)

/-! ## DbMapResultModel (dysql/pydantic_mappers.py)

The pydantic machinery itself lives outside this repository; what is
modelled of it is exactly what `map_record` relies on: `construct` leaves
`__fields_set__` empty, `__init__(**current_dict)` validates once and
makes `__fields_set__` the keys of the passed dict (so `_has_been_mapped`
is its nonemptiness).  The `inits` counter counts the `__init__`
validation runs. -/

/-- The class-level metadata fields of a `DbMapResultModel` subclass. -/
structure FieldSchema where
  list_fields : List String
  set_fields : List String
  /-- DB field name to model field name. -/
  dict_key_fields : List (String × String)
  /-- Model field name to DB field name (reversed from the key fields). -/
  dict_value_mappings : List (String × String)

/-- The mutable state of one model instance. -/
structure ModelState where
  dict : List (String × Value)
  fields_set : List String
  inits : Nat

/-- `DbMapResultModel._has_been_mapped`. -/
def hasBeenMapped (s : ModelState) : Bool :=
  !s.fields_set.isEmpty

/-- Python set insert (`set.add`) under `pyEq`. -/
def pySetAdd (l : List Value) (v : Value) : List Value :=
  if l.any (fun x => pyEq x v) then l else l ++ [v]

/-- `DbMapResultModel._map_list`. -/
def mapListField (mapped : Bool) (cur : List (String × Value)) (r : Row)
    (field : String) : Except String (List (String × Value)) :=
  match rowGet? r field with
  | none => .error "KeyError"
  | some Value.vnone => .ok cur
  | some v =>
    if mapped then
      match aGet sEq cur field with
      | some (Value.vlist l) => .ok (aSet sEq cur field (Value.vlist (l ++ [v])))
      | _ => .error "AttributeError"
    else .ok (aSet sEq cur field (Value.vlist [v]))

/-- `DbMapResultModel._map_set`. -/
def mapSetField (mapped : Bool) (cur : List (String × Value)) (r : Row)
    (field : String) : Except String (List (String × Value)) :=
  match rowGet? r field with
  | none => .error "KeyError"
  | some Value.vnone => .ok cur
  | some v =>
    if mapped then
      match aGet sEq cur field with
      | some (Value.vset l) => .ok (aSet sEq cur field (Value.vset (pySetAdd l v)))
      | _ => .error "AttributeError"
    else .ok (aSet sEq cur field (Value.vset [v]))

/-- `DbMapResultModel._map_dict`. -/
def mapDictField (sch : FieldSchema) (mapped : Bool)
    (cur : List (String × Value)) (r : Row) (field : String) :
    Except String (List (String × Value)) :=
  match aGet sEq sch.dict_key_fields field with
  | none => .error "KeyError"
  | some model_field =>
    match aGet sEq sch.dict_value_mappings model_field with
    | none => .error "KeyError"
    | some value_field =>
      match rowGet? r value_field with
      | none => .error "KeyError"
      | some Value.vnone => .ok cur
      | some vv =>
        match rowGet? r field with
        | none => .error "KeyError"
        | some k =>
          if mapped then
            match aGet sEq cur model_field with
            | some (Value.vdict m) =>
              .ok (aSet sEq cur model_field (Value.vdict (aSet pyEq m k vv)))
            | _ => .error "TypeError"
          else .ok (aSet sEq cur model_field (Value.vdict [(k, vv)]))

/-- The per-field dispatch of `DbMapResultModel.map_record`. -/
def mapOneField (sch : FieldSchema) (mapped : Bool)
    (cur : List (String × Value)) (r : Row) (field : String) :
    Except String (List (String × Value)) :=
  if field ∈ sch.list_fields then mapListField mapped cur r field
  else if field ∈ sch.set_fields then mapSetField mapped cur r field
  else if (sch.dict_key_fields.map Prod.fst).contains field then
    mapDictField sch mapped cur r field
  else if mapped then .ok cur
  else .ok (aSet sEq cur field ((rowGet? r field).getD Value.vnone))

/-- The loop of `map_record` over `record.keys()`. -/
def mapFieldsLoop (sch : FieldSchema) (mapped : Bool) (r : Row) :
    List String → List (String × Value) →
    Except String (List (String × Value))
  | [], cur => .ok cur
  | f :: fs, cur =>
    match mapOneField sch mapped cur r f with
    | .error e => .error e
    | .ok cur' => mapFieldsLoop sch mapped r fs cur'

/-- `DbMapResultModel.map_record`: dispatch every record field, pop all
dict-value DB fields, then either update in place (already mapped) or run
`__init__` (first mapping: validation, `__fields_set__` becomes the keys
of the dict). -/
def pydMapRecord (sch : FieldSchema) (s : ModelState) (r : Row) :
    Except String ModelState :=
  match mapFieldsLoop sch (hasBeenMapped s) r (r.map Prod.fst) s.dict with
  | .error e => .error e
  | .ok cur =>
    let cur := sch.dict_value_mappings.foldl
      (fun d mv => aPop sEq d mv.2) cur
    if hasBeenMapped s then
      .ok { dict := cur, fields_set := s.fields_set, inits := s.inits }
    else
      .ok { dict := cur, fields_set := cur.map Prod.fst, inits := s.inits + 1 }

/-- `DbMapResultModel.create_instance()` (pydantic `construct` with no
values): the dict holds the declared field defaults, `__fields_set__` is
empty, no validation has run. -/
def pydNew (defaults : List (String × Value)) : ModelState :=
  { dict := defaults, fields_set := [], inits := 0 }

/-! ## Specification-side record combining (for C2)

`combineSpec` renders the claim's words: rows are folded in arrival
order; a row without an `id` column always becomes its own fresh
singleton entry; a row with an `id` is merged into the entry of the first
earlier row with an equal (`pyEq`) id, or opens a new entry.  Entries are
tagged with `some id` or `none` (singleton), so singletons can never be
merged into. -/

/-- Lookup among the id-tagged entries only. -/
def oGet (st : List (Option Value × DbRes)) (rid : Value) : Option DbRes :=
  match st with
  | [] => none
  | (some k, res) :: rest => if pyEq k rid then some res else oGet rest rid
  | (none, _) :: rest => oGet rest rid

/-- Update the first id-tagged entry with an equal id, else append. -/
def oSet (st : List (Option Value × DbRes)) (rid : Value) (res : DbRes) :
    List (Option Value × DbRes) :=
  match st with
  | [] => [(some rid, res)]
  | (some k, res') :: rest =>
    if pyEq k rid then (some k, res) :: rest
    else (some k, res') :: oSet rest rid res
  | (none, res') :: rest => (none, res') :: oSet rest rid res

/-- The combining behaviour the claim describes (specification side). -/
def combineSpec (rows : List Row) : List (Option Value × DbRes) :=
  go rows []
where
  go : List Row → List (Option Value × DbRes) → List (Option Value × DbRes)
    | [], st => st
    | r :: rest, st =>
      if rowHas r "id" then
        let rid := (rowGet? r "id").getD Value.vnone
        let cur := (oGet st rid).getD dbNew
        go rest (oSet st rid (dbMapRecord cur r))
      else go rest (st ++ [(none, dbMapRecord dbNew r)])

/-- Number of rows without an `id` column (the counter values the mapper
hands out). -/
def noIdCount (rows : List Row) : Nat :=
  rows.countP fun r => !rowHas r "id"

/-- Correspondence between a mapper dictionary entry and a
specification-side entry: same record; an id-tagged entry carries the same
key, which collides with no counter value below `N`; a singleton entry is
keyed by a counter value below `n`. -/
def entryRel (N n : Nat) (a : Value × DbRes) (e : Option Value × DbRes) : Prop :=
  a.2 = e.2 ∧
  match e.1 with
  | some k => a.1 = k ∧ ∀ m : Nat, m < N → pyEq (Value.vint m) k = false
  | none => ∃ m : Nat, m < n ∧ a.1 = Value.vint m

/-! ## Name-shape combinators (for C3)

Every bind-parameter name `_parameterize_list` can generate for a key `k`
falls into one of these shapes: per-element names for the whole list
(`scalarNames`), or per-row names (`rowNames`, one batch per enumerated
row, tuple/list rows yielding doubly indexed names and scalar rows the
raw `key_index` name). -/

/-- Names generated for one enumerated row of a `values`/tuple expansion. -/
def rowNames (k : List Char) (i : Nat) : Value → List (List Char)
  | Value.vlist m => (List.range m.length).map fun j =>
      collapseDots k ++ '_' :: (natChars i ++ '_' :: natChars j)
  | Value.vtuple m => (List.range m.length).map fun j =>
      collapseDots k ++ '_' :: (natChars i ++ '_' :: natChars j)
  | _ => [k ++ '_' :: natChars i]

/-- Names generated for the rows from index `i` on. -/
def rowNamesFrom (k : List Char) : Nat → List Value → List (List Char)
  | _, [] => []
  | i, x :: rest => rowNames k i x ++ rowNamesFrom k (i + 1) rest

/-- Names generated by the whole-list scalar path. -/
def scalarNames (k : List Char) (n : Nat) : List (List Char) :=
  (List.range n).map fun i => collapseDots k ++ '_' :: natChars i

/-! ## Token predicates (for C4) -/

/-- No space characters. -/
def SpaceFree (cs : List Char) : Prop := ∀ c ∈ cs, c ≠ ' '

/-- No brace characters. -/
def BraceFree (cs : List Char) : Prop := ∀ c ∈ cs, c ≠ '{' ∧ c ≠ '}'

/-- The literal text `{key}`. -/
def tokenOfKey (k : List Char) : List Char :=
  '{' :: k ++ ['}']

/-- Well-formed token parts: nonempty `[A-Za-z_]+` column and optional
nonempty `[A-Za-z_]+` qualifier, as matched by `LIST_TEMPLATE_REGEX`. -/
def WfTok (qual : Option (List Char)) (col : List Char) : Prop :=
  col ≠ [] ∧ (∀ c ∈ col, wordChar c = true) ∧
    match qual with
    | some q => q ≠ [] ∧ ∀ c ∈ q, wordChar c = true
    | none => True

/-- The key text `kind__[qualifier.]column` of a token. -/
def keyOfParts (kind : TKind) (qual : Option (List Char)) (col : List Char) :
    List Char :=
  (MatchT.mk [] kind qual col []).key

/-! ## Decimal strings, digit-free prefixes and dot collapsing

These lemmas support the analysis of generated bind-parameter names,
which all have the shape `prefix ++ '_' :: suffix` with a digit-free
prefix derived from the template key and a suffix built from decimal
indices. -/

/-- Digit value of a digit character. -/
def digVal (c : Char) : Nat := c.toNat - 48

/-- The number denoted by a digit string (most significant first). -/
def digitsVal (cs : List Char) : Nat :=
  cs.foldl (fun a c => a * 10 + digVal c) 0

/-- No character of `cs` is a decimal digit. -/
def DigitFree (cs : List Char) : Prop := ∀ c ∈ cs, digChar c = false

/-- `cs` starts with a decimal digit. -/
def DigLed (cs : List Char) : Prop :=
  ∃ d t, cs = d :: t ∧ digChar d = true

theorem digVal_digitChar (d : Nat) (h : d < 10) : digVal (digitChar d) = d := by
  match d, h with
  | 0, _ => decide
  | 1, _ => decide
  | 2, _ => decide
  | 3, _ => decide
  | 4, _ => decide
  | 5, _ => decide
  | 6, _ => decide
  | 7, _ => decide
  | 8, _ => decide
  | 9, _ => decide

theorem digChar_digitChar (d : Nat) : digChar (digitChar d) = true := by
  match d with
  | 0 => decide
  | 1 => decide
  | 2 => decide
  | 3 => decide
  | 4 => decide
  | 5 => decide
  | 6 => decide
  | 7 => decide
  | 8 => decide
  | _ + 9 =>
    show digChar '9' = true
    decide

theorem natCharsF_stable : ∀ (n f : Nat), n < f → natCharsF f n = natChars n := by
  intro n
  induction n using Nat.strong_induction_on with
  | _ n ih =>
    intro f hf
    match f, hf with
    | f + 1, hf =>
      by_cases h10 : n < 10
      · simp [natCharsF, natChars, h10]
      · have hdiv : n / 10 < n := Nat.div_lt_self (by omega) (by omega)
        have h1 : natCharsF (f + 1) n = natCharsF f (n / 10) ++ [digitChar (n % 10)] := by
          simp [natCharsF, h10]
        have h2 : natChars n = natCharsF n (n / 10) ++ [digitChar (n % 10)] := by
          simp [natChars, natCharsF, h10]
        rw [h1, h2, ih (n / 10) hdiv f (by omega), ih (n / 10) hdiv n (by omega)]

theorem natChars_lt10 (n : Nat) (h : n < 10) : natChars n = [digitChar n] := by
  simp [natChars, natCharsF, h]

theorem natChars_ge10 (n : Nat) (h : ¬ n < 10) :
    natChars n = natChars (n / 10) ++ [digitChar (n % 10)] := by
  have hdiv : n / 10 < n := Nat.div_lt_self (by omega) (by omega)
  have h2 : natChars n = natCharsF n (n / 10) ++ [digitChar (n % 10)] := by
    simp [natChars, natCharsF, h]
  rw [h2, natCharsF_stable (n / 10) n hdiv]

theorem natChars_all_digits (n : Nat) : ∀ c ∈ natChars n, digChar c = true := by
  induction n using Nat.strong_induction_on with
  | _ n ih =>
    by_cases h10 : n < 10
    · rw [natChars_lt10 n h10]
      intro c hc
      simp only [List.mem_singleton] at hc
      exact hc ▸ digChar_digitChar n
    · rw [natChars_ge10 n h10]
      intro c hc
      rcases List.mem_append.mp hc with hc | hc
      · exact ih (n / 10) (Nat.div_lt_self (by omega) (by omega)) c hc
      · simp only [List.mem_singleton] at hc
        exact hc ▸ digChar_digitChar (n % 10)

theorem natChars_ne_nil (n : Nat) : natChars n ≠ [] := by
  by_cases h10 : n < 10
  · rw [natChars_lt10 n h10]
    simp
  · rw [natChars_ge10 n h10]
    simp

theorem natChars_digLed (n : Nat) : DigLed (natChars n) := by
  rcases hx : natChars n with _ | ⟨c, t⟩
  · exact absurd hx (natChars_ne_nil n)
  · refine ⟨c, t, rfl, ?_⟩
    exact natChars_all_digits n c (by rw [hx]; simp)

theorem digitsVal_append_one (cs : List Char) (c : Char) :
    digitsVal (cs ++ [c]) = digitsVal cs * 10 + digVal c := by
  simp [digitsVal, List.foldl_append]

theorem digitsVal_natChars (n : Nat) : digitsVal (natChars n) = n := by
  induction n using Nat.strong_induction_on with
  | _ n ih =>
    by_cases h10 : n < 10
    · rw [natChars_lt10 n h10]
      simp [digitsVal, digVal_digitChar n h10]
    · rw [natChars_ge10 n h10, digitsVal_append_one,
        ih (n / 10) (Nat.div_lt_self (by omega) (by omega)),
        digVal_digitChar (n % 10) (Nat.mod_lt n (by omega))]
      omega

theorem natChars_injective (m n : Nat) (h : natChars m = natChars n) : m = n := by
  have := digitsVal_natChars m
  rw [h, digitsVal_natChars n] at this
  omega

/-- A digit-led string cannot decompose as digit-free characters followed
by an underscore. -/
theorem digLed_no_split (s B' t : List Char) (hs : DigLed s)
    (he : s = B' ++ '_' :: t) (hB : DigitFree B') : False := by
  obtain ⟨d, u, hsd, hdig⟩ := hs
  match B', he with
  | [], he =>
    rw [hsd] at he
    simp only [List.nil_append, List.cons.injEq] at he
    rw [he.1] at hdig
    exact absurd hdig (by decide)
  | c :: B'', he =>
    rw [hsd] at he
    simp only [List.cons_append, List.cons.injEq] at he
    rw [he.1] at hdig
    rw [hB c (by simp)] at hdig
    cases hdig

/-- The split of a generated name into its digit-free prefix and its
digit-led suffix is unique. -/
theorem underscore_digit_split : ∀ (A B s t : List Char),
    DigitFree A → DigitFree B → DigLed s → DigLed t →
    A ++ '_' :: s = B ++ '_' :: t → A = B ∧ s = t := by
  intro A
  induction A with
  | nil =>
    intro B s t _ hB hs ht he
    match B, he with
    | [], he =>
      simp only [List.nil_append, List.cons.injEq] at he
      exact ⟨rfl, he.2⟩
    | b :: B', he =>
      simp only [List.nil_append, List.cons_append, List.cons.injEq] at he
      exact absurd he.2 fun h2 =>
        digLed_no_split s B' t hs h2 (fun c hc => hB c (by simp [hc]))
  | cons a A' ih =>
    intro B s t hA hB hs ht he
    match B, he with
    | [], he =>
      simp only [List.cons_append, List.nil_append, List.cons.injEq] at he
      exact absurd he.2.symm fun h2 =>
        digLed_no_split t A' s ht h2 (fun c hc => hA c (by simp [hc]))
    | b :: B', he =>
      simp only [List.cons_append, List.cons.injEq] at he
      obtain ⟨hab, he'⟩ := he
      obtain ⟨h1, h2⟩ := ih B' s t (fun c hc => hA c (by simp [hc]))
        (fun c hc => hB c (by simp [hc])) hs ht he'
      exact ⟨by rw [hab, h1], h2⟩

theorem collapseDots_append (a b : List Char) :
    collapseDots (a ++ b) = collapseDots a ++ collapseDots b := by
  simp [collapseDots]

theorem collapseDots_idem (k : List Char) :
    collapseDots (collapseDots k) = collapseDots k := by
  simp only [collapseDots, List.map_map]
  apply List.map_congr_left
  intro c _
  by_cases hc : c = '.'
  · simp [hc]
  · simp [hc]

theorem collapseDots_digitFree (k : List Char) (h : DigitFree k) :
    DigitFree (collapseDots k) := by
  intro c hc
  simp only [collapseDots, List.mem_map] at hc
  obtain ⟨c', hc', he⟩ := hc
  by_cases hd : c' = '.'
  · simp only [hd, if_pos] at he
    subst he
    decide
  · simp only [hd, if_neg, ite_false] at he
    exact he ▸ h c' hc'

theorem collapseDots_of_noDots :
    ∀ (cs : List Char), (∀ c ∈ cs, c ≠ '.') → collapseDots cs = cs
  | [], _ => rfl
  | c :: cs, h => by
    have hc := h c (by simp)
    simp only [collapseDots, List.map_cons, hc, if_neg, ite_false]
    rw [show List.map (fun c => if c = '.' then '_' else c) cs = collapseDots cs from rfl,
      collapseDots_of_noDots cs fun c' hc' => h c' (by simp [hc'])]

theorem collapseDots_natChars (i : Nat) :
    collapseDots (natChars i) = natChars i := by
  apply collapseDots_of_noDots
  intro c hc he
  have := natChars_all_digits i c hc
  rw [he] at this
  cases this

theorem takeWhile_all_eq (p : Char → Bool) :
    ∀ (xs : List Char), (∀ x ∈ xs, p x = true) → xs.takeWhile p = xs
  | [], _ => rfl
  | x :: xs, h => by
    have hx := h x (by simp)
    simp only [List.takeWhile_cons, hx, if_pos]
    rw [takeWhile_all_eq p xs fun x' hx' => h x' (by simp [hx'])]

theorem takeWhile_append_stop (p : Char → Bool) (xs : List Char) (y : Char)
    (ys : List Char) (hall : ∀ x ∈ xs, p x = true) (hy : p y = false) :
    (xs ++ y :: ys).takeWhile p = xs := by
  induction xs with
  | nil => simp [List.takeWhile_cons, hy]
  | cons x xs ih =>
    have hx := hall x (by simp)
    simp only [List.cons_append, List.takeWhile_cons, hx, if_pos]
    rw [ih fun x' hx' => hall x' (by simp [hx'])]

/-! ## Dictionary lemmas -/

theorem sEq_iff (a b : String) : sEq a b = true ↔ a = b := by
  simp [sEq]

theorem sEq_self (a : String) : sEq a a = true := by
  simp [sEq]

theorem aGet_aSet_self (eq : κ → κ → Bool) (d : List (κ × α)) (k : κ) (v : α)
    (h : eq k k = true) : aGet eq (aSet eq d k v) k = some v := by
  induction d with
  | nil => simp [aSet, aGet, h]
  | cons kv rest ih =>
    by_cases hk : eq kv.1 k = true
    · simp [aSet, aGet, hk]
    · simp only [Bool.not_eq_true] at hk
      simp [aSet, aGet, hk, ih]

theorem aGet_aSet_other (d : List (String × α)) (k k' : String)
    (v : α) (h : k ≠ k') : aGet sEq (aSet sEq d k v) k' = aGet sEq d k' := by
  induction d with
  | nil => simp [aSet, aGet, sEq, h]
  | cons kv rest ih =>
    by_cases hk : sEq kv.1 k = true
    · rw [sEq_iff] at hk
      have hk' : sEq kv.1 k' = false := by
        simp [sEq, hk, h]
      simp [aSet, aGet, sEq, hk, hk', h]
    · simp only [Bool.not_eq_true] at hk
      by_cases hk' : sEq kv.1 k' = true
      · simp [aSet, aGet, hk, hk']
      · simp only [Bool.not_eq_true] at hk'
        simp [aSet, aGet, hk, hk', ih]

theorem aGet_eq_none_of_all (eq : κ → κ → Bool) (d : List (κ × α)) (k : κ)
    (h : ∀ kv ∈ d, eq kv.1 k = false) : aGet eq d k = none := by
  induction d with
  | nil => rfl
  | cons kv rest ih =>
    have h1 := h kv (by simp)
    simp [aGet, h1]
    exact ih fun kv' hkv' => h kv' (by simp [hkv'])

theorem aPop_keys_subset (eq : κ → κ → Bool) (d : List (κ × α)) (k : κ)
    (kv : κ × α) (h : kv ∈ aPop eq d k) : kv ∈ d := by
  induction d with
  | nil => simp only [aPop] at h; cases h
  | cons kv' rest ih =>
    by_cases hk : eq kv'.1 k = true
    · simp only [aPop, hk, if_pos] at h
      exact List.mem_cons_of_mem _ h
    · simp only [Bool.not_eq_true] at hk
      simp only [aPop, hk] at h
      rcases List.mem_cons.mp h with h | h
      · exact h ▸ List.mem_cons_self _ _
      · exact List.mem_cons_of_mem _ (ih h)

theorem aSet_keys_mem : ∀ (d : List (String × α)) (k k' : String) (v : α),
    k' ∈ (aSet sEq d k v).map Prod.fst → k' ∈ d.map Prod.fst ∨ k' = k
  | [], k, k', v, h => by simpa [aSet] using h
  | kv :: rest, k, k', v, h => by
    by_cases hk : sEq kv.1 k = true
    · simp only [aSet, hk, if_pos, List.map_cons] at h
      simpa using Or.inl h
    · simp only [Bool.not_eq_true] at hk
      simp only [aSet, hk, Bool.false_eq_true, if_false, List.map_cons,
        List.mem_cons] at h ⊢
      rcases h with h | h
      · exact Or.inl (Or.inl h)
      · rcases aSet_keys_mem rest k k' v h with h | h
        · exact Or.inl (Or.inr h)
        · exact Or.inr h

theorem aSet_keys_nodup : ∀ (d : List (String × α)) (k : String) (v : α),
    (d.map Prod.fst).Nodup → ((aSet sEq d k v).map Prod.fst).Nodup
  | [], k, v, _ => by simp [aSet]
  | kv :: rest, k, v, h => by
    simp only [List.map_cons, List.nodup_cons] at h
    by_cases hk : sEq kv.1 k = true
    · simp only [aSet, hk, if_pos, List.map_cons, List.nodup_cons]
      exact h
    · simp only [Bool.not_eq_true] at hk
      simp only [aSet, hk, Bool.false_eq_true, if_false, List.map_cons,
        List.nodup_cons]
      refine ⟨fun hmem => ?_, aSet_keys_nodup rest k v h.2⟩
      rcases aSet_keys_mem rest k kv.1 v hmem with hm | hm
      · exact h.1 hm
      · rw [hm] at hk
        simp [sEq] at hk

theorem aGet_aPop_other (d : List (String × α)) (k f : String) (h : f ≠ k) :
    aGet sEq (aPop sEq d k) f = aGet sEq d f := by
  induction d with
  | nil => rfl
  | cons kv rest ih =>
    by_cases hk : sEq kv.1 k = true
    · have hk' : kv.1 = k := (sEq_iff _ _).mp hk
      have hf : sEq kv.1 f = false := by
        simp only [sEq, hk', decide_eq_false_iff_not]
        exact fun he => h he.symm
      simp only [aPop, hk, if_pos, aGet, hf, Bool.false_eq_true, if_false]
    · simp only [Bool.not_eq_true] at hk
      by_cases hf : sEq kv.1 f = true
      · simp [aPop, aGet, hk, hf]
      · simp only [Bool.not_eq_true] at hf
        simp [aPop, aGet, hk, hf, ih]

theorem aGet_mem_snd (d : List (String × α)) (x : String) (y : α)
    (h : aGet sEq d x = some y) : y ∈ d.map Prod.snd := by
  induction d with
  | nil => cases h
  | cons kv rest ih =>
    by_cases hk : sEq kv.1 x = true
    · simp only [aGet, hk, if_pos, Option.some.injEq] at h
      simp [h]
    · simp only [Bool.not_eq_true] at hk
      simp only [aGet, hk, Bool.false_eq_true, if_false] at h
      simp [ih h]

/-- Popping the unique (by `Nodup` keys) matching key removes it. -/
theorem aGet_aPop_self (d : List (String × α)) (k : String)
    (h : (d.map Prod.fst).Nodup) : aGet sEq (aPop sEq d k) k = none := by
  induction d with
  | nil => rfl
  | cons kv rest ih =>
    simp only [List.map_cons, List.nodup_cons] at h
    by_cases hk : sEq kv.1 k = true
    · rw [sEq_iff] at hk
      subst hk
      simp only [aPop, sEq_self, if_pos]
      exact aGet_eq_none_of_all _ _ _ fun kv' hkv' => by
        rcases h with ⟨hnotin, _⟩
        have : kv'.1 ≠ kv.1 := fun he =>
          hnotin (he ▸ List.mem_map_of_mem Prod.fst hkv')
        simp [sEq, this]
    · simp only [Bool.not_eq_true] at hk
      simp [aPop, aGet, hk, ih h.2]

end DySql

namespace DySqlCheck

open DySql DySql.Value DySql.TemplateGenerators

example : natChars 0 = ['0'] := rfl

example : natChars 12 = ['1', '2'] := rfl

example : splitDunder "in__a_b".data = ["in".data, "a_b".data] := rfl

example : splitDunder "in____col".data = ["in".data, [], "col".data] := rfl

example :
    in_column "col".data (vlist [vint 1, vint 2]) (some "in__col".data) false =
      .ok ("col IN ( :in__col_0, :in__col_1 )".data,
        some [("in__col_0".data, vint 1), ("in__col_1".data, vint 2)]) := rfl

example : in_column "col".data (vlist []) none false = .ok ("1 <> 1".data, none) := rfl

example :
    values "actors".data (vlist [vtuple [vint 1, vint 2], vtuple [vint 3, vint 4]]) none =
      .ok ("VALUES ( :actors_0_0, :actors_0_1 ), ( :actors_1_0, :actors_1_1 )".data,
        some [("actors_0_0".data, vint 1), ("actors_0_1".data, vint 2),
          ("actors_1_0".data, vint 3), ("actors_1_1".data, vint 4)]) := rfl

example :
    getQueryData
      { query := "SELECT * FROM t WHERE \x7bin__col\x7d".data,
        template_params := some [("in__col".data, vlist [vint 1, vint 2])] } =
      .ok ("SELECT * FROM t WHERE col IN ( :in__col_0, :in__col_1 ) ".data,
        [("in__col_0".data, vint 1), ("in__col_1".data, vint 2)]) := by rfl

example :
    validateKeysCleanQuery
      "SELECT * FROM table WHERE \x7bin__column_a\x7d OR \x7bin__column_b\x7d".data
      none =
      .error (.listTemplateMissing ["in__column_a".data]) := rfl

example :
    templateGeneratedNames
      { query := "\x7bin__a.col\x7d \x7bin__a_col\x7d".data,
        template_params := some [("in__a.col".data, vlist [vint 1]),
          ("in__a_col".data, vlist [vint 2])] } =
      .ok ["in__a_col_0".data, "in__a_col_0".data] := rfl

-- The id-0 / counter-key collision of RecordCombiningMapper: the first row
-- has no id and is stored under counter key 0; the second row has id 0 and
-- is merged into it.
example :
    mapRecordsCombining [[("a", vint 1)], [("id", vint 0), ("b", vint 2)]] =
      [[("id", vint 0), ("a", vint 1), ("b", vint 2)]] := rfl

example : mapRecordsCombining
    [[("id", vint 1), ("a", vint 1)], [("id", vint 2), ("a", vint 1)],
     [("id", vint 1), ("c", vint 3)]] =
      [[("id", vint 1), ("a", vint 1), ("c", vint 3)],
       [("id", vint 2), ("a", vint 1)]] := rfl

example : mapRecordsSingleRow [[("id", vint 1), ("a", vint 1)], [("id", vint 1), ("a", vint 2)]] =
    some [("id", vint 1), ("a", vint 1)] := rfl

example : dbRaw (dbInit [("id", vint 0), ("x", vint 5)]) = .ok [("x", vint 5)] := rfl

end DySqlCheck

namespace DySql

theorem pyEq_vint_vint (a b : Int) :
    pyEq (Value.vint a) (Value.vint b) = decide (a = b) := rfl

theorem pyEq_vint_comm (m : Int) (x : Value) :
    pyEq (Value.vint m) x = pyEq x (Value.vint m) := by
  cases x <;> simp [pyEq, numView, eq_comm]

/-- Generic: setting a key that matches nothing appends. -/
theorem aSet_append_of_nomatch (eq : κ → κ → Bool) (d : List (κ × α))
    (k : κ) (v : α) (h : ∀ kv ∈ d, eq kv.1 k = false) :
    aSet eq d k v = d ++ [(k, v)] := by
  induction d with
  | nil => rfl
  | cons kv rest ih =>
    have h1 := h kv (by simp)
    simp only [aSet, h1, Bool.false_eq_true, if_false, List.cons_append,
      List.cons.injEq, true_and]
    exact ih fun kv' hkv' => h kv' (by simp [hkv'])

theorem entryRel_mono (N n n' : Nat) (h : n ≤ n') (a : Value × DbRes)
    (e : Option Value × DbRes) (hr : entryRel N n a e) : entryRel N n' a e := by
  obtain ⟨h2, h1⟩ := hr
  refine ⟨h2, ?_⟩
  match e with
  | (some k, _) => exact h1
  | (none, _) =>
    obtain ⟨m, hm, ha⟩ := h1
    exact ⟨m, lt_of_lt_of_le hm h, ha⟩

theorem forall₂_map_snd {P : Value × DbRes → Option Value × DbRes → Prop}
    (h : ∀ a e, P a e → a.2 = e.2) :
    ∀ {acc : List (Value × DbRes)} {st : List (Option Value × DbRes)},
    List.Forall₂ P acc st → acc.map Prod.snd = st.map Prod.snd := by
  intro acc st hf
  induction hf with
  | nil => rfl
  | cons hae _ ih => simp [h _ _ hae, ih]

theorem forall₂_mem_left {P : α → β → Prop} {l1 : List α} {l2 : List β}
    (h : List.Forall₂ P l1 l2) (a : α) (ha : a ∈ l1) :
    ∃ b ∈ l2, P a b := by
  induction h with
  | nil => cases ha
  | cons hab _ ih =>
    rcases List.mem_cons.mp ha with ha | ha
    · exact ⟨_, by simp, ha ▸ hab⟩
    · obtain ⟨b, hb, hP⟩ := ih ha
      exact ⟨b, by simp [hb], hP⟩

/-- The id-row step: under the correspondence, the mapper's dictionary
lookup and update agree with the specification-side lookup and update. -/
theorem step_corr (N n : Nat) (rid : Value) (X : DbRes)
    (hrid : ∀ m : Nat, m < N → pyEq (Value.vint m) rid = false)
    (hn : n ≤ N) :
    ∀ (acc : List (Value × DbRes)) (st : List (Option Value × DbRes)),
    List.Forall₂ (entryRel N n) acc st →
    aGet pyEq acc rid = oGet st rid ∧
      List.Forall₂ (entryRel N n) (aSet pyEq acc rid X) (oSet st rid X) := by
  intro acc st hf
  induction hf with
  | nil =>
    refine ⟨rfl, ?_⟩
    simp only [aSet, oSet]
    exact List.Forall₂.cons ⟨rfl, rfl, hrid⟩ List.Forall₂.nil
  | @cons a e accr str hae _ ih =>
    match e, hae with
    | (some k, res), ⟨hsnd, hfst, hcoll⟩ =>
      by_cases hpk : pyEq k rid = true
      · constructor
        · simp only [aGet, oGet, hfst, hpk, if_pos, hsnd]
        · simp only [aSet, oSet, hfst, hpk, if_pos]
          exact List.Forall₂.cons ⟨rfl, rfl, hcoll⟩ (by assumption)
      · simp only [Bool.not_eq_true] at hpk
        refine ⟨?_, ?_⟩
        · simp only [aGet, oGet, hfst, hpk, Bool.false_eq_true, if_false, ih.1]
        · simp only [aSet, oSet, hfst, hpk, Bool.false_eq_true, if_false]
          exact List.Forall₂.cons ⟨hsnd, rfl, hcoll⟩ ih.2
    | (none, res), ⟨hsnd, m, hm, hfst⟩ =>
      have hpk : pyEq a.1 rid = false := by
        rw [hfst]
        exact hrid m (lt_of_lt_of_le hm hn)
      refine ⟨?_, ?_⟩
      · simp only [aGet, oGet, hpk, Bool.false_eq_true, if_false, ih.1]
      · simp only [aSet, oSet, hpk, Bool.false_eq_true, if_false]
        exact List.Forall₂.cons ⟨hsnd, m, hm, hfst⟩ ih.2

/-- Loop correspondence for the amended C2. -/
theorem combine_go_corr (N : Nat) :
    ∀ (rows : List Row) (acc : List (Value × DbRes))
      (st : List (Option Value × DbRes)) (n : Nat),
    (∀ r ∈ rows, rowHas r "id" = true →
      ∀ m : Nat, m < N → pyEq (Value.vint m) ((rowGet? r "id").getD Value.vnone) = false) →
    n + noIdCount rows ≤ N →
    List.Forall₂ (entryRel N n) acc st →
    mapRecordsCombining.go rows acc n = (combineSpec.go rows st).map Prod.snd
  | [], acc, st, n, _, _, hf => by
    simp only [mapRecordsCombining.go, combineSpec.go]
    exact forall₂_map_snd (fun a e h => h.1) hf
  | r :: rest, acc, st, n, H, hle, hf => by
    by_cases hid : rowHas r "id" = true
    · have hrid := H r (by simp) hid
      have hcount : noIdCount rest ≤ noIdCount (r :: rest) := by
        simp only [noIdCount, List.countP_cons]
        omega
      have hn : n ≤ N := by
        have := hle
        omega
      obtain ⟨hget, hset⟩ :=
        step_corr N n ((rowGet? r "id").getD Value.vnone)
          (dbMapRecord ((aGet pyEq acc ((rowGet? r "id").getD Value.vnone)).getD dbNew) r)
          hrid hn acc st hf
      simp only [mapRecordsCombining.go, combineSpec.go, hid, if_pos]
      rw [← hget]
      exact combine_go_corr N rest _ _ n
        (fun r' hr' => H r' (by simp [hr'])) (le_trans (by omega) hle) hset
    · simp only [Bool.not_eq_true] at hid
      have hcc : noIdCount (r :: rest) = noIdCount rest + 1 := by
        simp [noIdCount, List.countP_cons, hid]
      rw [hcc] at hle
      have hnN : n < N := by omega
      have hnomatch : ∀ kv ∈ acc, pyEq kv.1 (Value.vint n) = false := by
        intro kv hkv
        obtain ⟨e, _, hrel⟩ := forall₂_mem_left hf kv hkv
        match e, hrel with
        | (some k, _), ⟨_, hfst, hcoll⟩ =>
          rw [hfst, ← pyEq_vint_comm]
          exact hcoll n hnN
        | (none, _), ⟨_, m, hm, hfst⟩ =>
          rw [hfst, pyEq_vint_vint]
          simp
          omega
      simp only [mapRecordsCombining.go, combineSpec.go, hid, Bool.false_eq_true,
        if_false]
      rw [aSet_append_of_nomatch pyEq acc (Value.vint n) _ hnomatch]
      refine combine_go_corr N rest _ _ (n + 1)
        (fun r' hr' => H r' (by simp [hr'])) (by omega) ?_
      refine List.rel_append
        (List.Forall₂.imp (fun a e h => entryRel_mono N n (n + 1) (by omega) a e h) hf) ?_
      exact List.Forall₂.cons ⟨rfl, n, by omega, rfl⟩ List.Forall₂.nil


/-! ## Frame lemmas for DbMapResultModel.map_record (C9) -/

/-- A successful `_map_list` either leaves the dict alone or assigns the
dispatched field. -/
theorem mapListField_result (mapped : Bool) (cur cur' : List (String × Value))
    (r : Row) (f0 : String)
    (hok : mapListField mapped cur r f0 = .ok cur') :
    cur' = cur ∨ ∃ v, cur' = aSet sEq cur f0 v := by
  unfold mapListField at hok
  repeat' split at hok
  all_goals cases hok
  all_goals first
    | exact Or.inl rfl
    | exact Or.inr ⟨_, rfl⟩

/-- A successful `_map_set` either leaves the dict alone or assigns the
dispatched field. -/
theorem mapSetField_result (mapped : Bool) (cur cur' : List (String × Value))
    (r : Row) (f0 : String)
    (hok : mapSetField mapped cur r f0 = .ok cur') :
    cur' = cur ∨ ∃ v, cur' = aSet sEq cur f0 v := by
  unfold mapSetField at hok
  repeat' split at hok
  all_goals cases hok
  all_goals first
    | exact Or.inl rfl
    | exact Or.inr ⟨_, rfl⟩

/-- A successful `_map_dict` either leaves the dict alone or assigns the
model field registered for the dispatched DB field. -/
theorem mapDictField_result (sch : FieldSchema) (mapped : Bool)
    (cur cur' : List (String × Value)) (r : Row) (f0 : String)
    (hok : mapDictField sch mapped cur r f0 = .ok cur') :
    cur' = cur ∨ ∃ mf v, aGet sEq sch.dict_key_fields f0 = some mf ∧
      cur' = aSet sEq cur mf v := by
  unfold mapDictField at hok
  repeat' split at hok
  all_goals cases hok
  all_goals try exact Or.inl rfl
  all_goals exact Or.inr ⟨_, _, by assumption, rfl⟩

/-- A single field dispatch of `map_record` on an already-mapped instance
leaves every field outside the list/set/dict-key machinery unchanged. -/
theorem mapOneField_frame (sch : FieldSchema) (cur cur' : List (String × Value))
    (r : Row) (f0 f : String)
    (hok : mapOneField sch true cur r f0 = .ok cur')
    (hl : f ∉ sch.list_fields)
    (hs : f ∉ sch.set_fields)
    (hd : f ∉ sch.dict_key_fields.map Prod.snd) :
    aGet sEq cur' f = aGet sEq cur f := by
  unfold mapOneField at hok
  split at hok
  · rename_i h1
    have hne : f0 ≠ f := fun he => hl (he ▸ h1)
    rcases mapListField_result true cur cur' r f0 hok with rfl | ⟨v, rfl⟩
    · rfl
    · exact aGet_aSet_other cur f0 f v hne
  · split at hok
    · rename_i h2
      have hne : f0 ≠ f := fun he => hs (he ▸ h2)
      rcases mapSetField_result true cur cur' r f0 hok with rfl | ⟨v, rfl⟩
      · rfl
      · exact aGet_aSet_other cur f0 f v hne
    · split at hok
      · rcases mapDictField_result sch true cur cur' r f0 hok with rfl | ⟨mf, v, hmf, rfl⟩
        · rfl
        · have hne : mf ≠ f := fun he =>
            hd (he ▸ aGet_mem_snd sch.dict_key_fields f0 mf hmf)
          exact aGet_aSet_other cur mf f v hne
      · split at hok
        · cases hok
          rfl
        · rename_i hcontra
          exact absurd rfl hcontra

/-- The whole field loop of `map_record` on a mapped instance is a frame
for such fields. -/
theorem mapFieldsLoop_frame (sch : FieldSchema) (r : Row) (f : String)
    (hl : f ∉ sch.list_fields) (hs : f ∉ sch.set_fields)
    (hd : f ∉ sch.dict_key_fields.map Prod.snd) :
    ∀ (fields : List String) (cur cur' : List (String × Value)),
    mapFieldsLoop sch true r fields cur = .ok cur' →
    aGet sEq cur' f = aGet sEq cur f
  | [], cur, cur', hok => by
    cases hok
    rfl
  | f0 :: fs, cur, cur', hok => by
    simp only [mapFieldsLoop] at hok
    rcases h1 : mapOneField sch true cur r f0 with e | cur1
    · rw [h1] at hok; cases hok
    · rw [h1] at hok
      rw [mapFieldsLoop_frame sch r f hl hs hd fs cur1 cur' hok]
      exact mapOneField_frame sch cur cur1 r f0 f h1 hl hs hd

/-- The dict-value pops at the end of `map_record` are a frame for fields
that are not dict-value DB fields. -/
theorem popLoop_frame (f : String) :
    ∀ (mvs : List (String × String)) (cur : List (String × Value)),
    f ∉ mvs.map Prod.snd →
    aGet sEq (mvs.foldl (fun d mv => aPop sEq d mv.2) cur) f = aGet sEq cur f
  | [], cur, _ => rfl
  | mv :: rest, cur, hv => by
    have hne : f ≠ mv.2 := fun he => hv (by simp [he])
    simp only [List.foldl_cons]
    rw [popLoop_frame f rest (aPop sEq cur mv.2) (fun hm => hv (by simp [hm]))]
    exact aGet_aPop_other cur mv.2 f hne

/-! ## Generated-name characterization (C3) -/

theorem wordChar_not_digit (c : Char) (h : wordChar c = true) : digChar c = false := by
  simp only [wordChar, decide_eq_true_eq] at h
  simp only [digChar, decide_eq_false_iff_not, not_and]
  intro h1 h2
  rcases h with ⟨ha, _⟩ | ⟨ha, _⟩ | rfl
  · exact absurd (le_trans ha h2) (by decide)
  · exact absurd (le_trans ha h2) (by decide)
  · exact absurd h2 (by decide)

theorem wordChar_ne_dot (c : Char) (h : wordChar c = true) : c ≠ '.' := by
  intro he
  rw [he] at h
  exact absurd h (by decide)

theorem natChars_ne_dot (i : Nat) : ∀ c ∈ natChars i, c ≠ '.' := by
  intro c hc he
  have := natChars_all_digits i c hc
  rw [he] at this
  exact absurd this (by decide)

theorem collapseDots_key_index (key : List Char) (i : Nat) :
    collapseDots (key ++ '_' :: natChars i) =
      collapseDots key ++ '_' :: natChars i := by
  rw [collapseDots_append]
  congr 1
  apply collapseDots_of_noDots
  intro c hc
  rcases List.mem_cons.mp hc with rfl | hc
  · decide
  · exact natChars_ne_dot i c hc

theorem enum_names (g : Nat → List Char) (l : List Value) :
    (l.enum.map fun iv => (g iv.1, iv.2)).map Prod.fst =
      (List.range l.length).map g := by
  rw [List.map_map]
  have h1 : (Prod.fst ∘ fun iv : Nat × Value => (g iv.1, iv.2)) =
      (fun iv : Nat × Value => g iv.1) := rfl
  rw [h1, ← List.enum_map_fst l, List.map_map]
  rfl

theorem inner_names_vlist (key : List Char) (l : List Value) :
    ((TemplateGenerators.parameterize_inner_list key (Value.vlist l)).2).map Prod.fst =
      (List.range l.length).map fun i => collapseDots key ++ '_' :: natChars i := by
  simp only [TemplateGenerators.parameterize_inner_list,
    TemplateGenerators.parameterize_inner_list.go]
  exact enum_names (fun i => collapseDots key ++ '_' :: natChars i) l

theorem inner_names_vtuple (key : List Char) (l : List Value) :
    ((TemplateGenerators.parameterize_inner_list key (Value.vtuple l)).2).map Prod.fst =
      (List.range l.length).map fun i => collapseDots key ++ '_' :: natChars i := by
  simp only [TemplateGenerators.parameterize_inner_list,
    TemplateGenerators.parameterize_inner_list.go]
  exact enum_names (fun i => collapseDots key ++ '_' :: natChars i) l

theorem inner_names_rowNames (key : List Char) (i : Nat) (x : Value) :
    ((TemplateGenerators.parameterize_inner_list (key ++ '_' :: natChars i) x).2).map Prod.fst =
      rowNames key i x := by
  cases x with
  | vlist l =>
    rw [inner_names_vlist, collapseDots_key_index]
    simp only [rowNames, List.append_assoc, List.cons_append]
  | vtuple l =>
    rw [inner_names_vtuple, collapseDots_key_index]
    simp only [rowNames, List.append_assoc, List.cons_append]
  | vnone => rfl
  | vint n => rfl
  | vbool b => rfl
  | vstr s => rfl
  | vset l => rfl
  | vdict l => rfl

theorem plist_go_names (k : List Char) (whole : Value) :
    ∀ (l : List Value) (i : Nat) (log : PLog) (pks : List (List Char))
      (fr : List Char) (log' : PLog),
    TemplateGenerators.parameterize_list.go k whole l i log pks = .ok (fr, log') →
    log'.map Prod.fst = log.map Prod.fst ++ rowNamesFrom k i l ∨
    log' = (TemplateGenerators.parameterize_inner_list k whole).2
  | [], i, log, pks, fr, log', h => by
    simp only [TemplateGenerators.parameterize_list.go, Except.ok.injEq,
      Prod.mk.injEq] at h
    left
    rw [← h.2, rowNamesFrom]
    simp
  | x :: rest, i, log, pks, fr, log', h => by
    simp only [TemplateGenerators.parameterize_list.go] at h
    split at h
    · rcases plist_go_names k whole rest (i + 1) _ _ fr log' h with h1 | h1
      · left
        rw [h1]
        simp only [List.map_append, rowNamesFrom, inner_names_rowNames k i x]
        simp [List.append_assoc]
      · exact Or.inr h1
    · right
      cases h
      rfl

theorem plist_names_cases (k : List Char) (v : Value) (fr : List Char) (log : PLog)
    (h : TemplateGenerators.parameterize_list k v = .ok (fr, log)) :
    (∃ l : List Value, log.map Prod.fst = rowNamesFrom k 0 l) ∨
    (∃ n : Nat, log.map Prod.fst = scalarNames k n) := by
  cases v with
  | vlist l =>
    replace h : TemplateGenerators.parameterize_list.go k (Value.vlist l) l 0 [] [] =
        .ok (fr, log) := h
    rcases plist_go_names k (Value.vlist l) l 0 [] [] fr log h with h1 | h1
    · exact Or.inl ⟨l, by simpa using h1⟩
    · right
      refine ⟨l.length, ?_⟩
      rw [h1, inner_names_vlist]
      rfl
  | vtuple l =>
    replace h : TemplateGenerators.parameterize_list.go k (Value.vtuple l) l 0 [] [] =
        .ok (fr, log) := h
    rcases plist_go_names k (Value.vtuple l) l 0 [] [] fr log h with h1 | h1
    · exact Or.inl ⟨l, by simpa using h1⟩
    · right
      refine ⟨l.length, ?_⟩
      rw [h1, inner_names_vtuple]
      rfl
  | vstr s =>
    replace h : TemplateGenerators.parameterize_list.go k (Value.vtuple [Value.vstr s])
        [Value.vstr s] 0 [] [] = .ok (fr, log) := h
    rcases plist_go_names k (Value.vtuple [Value.vstr s]) [Value.vstr s] 0 [] [] fr log h with h1 | h1
    · exact Or.inl ⟨[Value.vstr s], by simpa using h1⟩
    · right
      refine ⟨1, ?_⟩
      rw [h1, inner_names_vtuple]
      rfl
  | vnone => cases h
  | vint n => cases h
  | vbool b => cases h
  | vset l => cases h
  | vdict l => cases h

theorem rowNames_shape (k : List Char) (hk : DigitFree k) (i : Nat) (x : Value) :
    ∀ n ∈ rowNames k i x, ∃ A s, n = A ++ '_' :: s ∧ DigitFree A ∧
      collapseDots A = collapseDots k ∧ DigLed s ∧
      s.takeWhile digChar = natChars i := by
  have htuple : ∀ (m : List Value) (n : List Char),
      n ∈ ((List.range m.length).map fun j =>
        collapseDots k ++ '_' :: (natChars i ++ '_' :: natChars j)) →
      ∃ A s, n = A ++ '_' :: s ∧ DigitFree A ∧
        collapseDots A = collapseDots k ∧ DigLed s ∧
        s.takeWhile digChar = natChars i := by
    intro m n hn
    simp only [List.mem_map, List.mem_range] at hn
    obtain ⟨j, _, rfl⟩ := hn
    refine ⟨collapseDots k, natChars i ++ '_' :: natChars j, rfl,
      collapseDots_digitFree k hk, collapseDots_idem k, ?_, ?_⟩
    · obtain ⟨d, u, hdu, hdig⟩ := natChars_digLed i
      exact ⟨d, u ++ '_' :: natChars j, by rw [hdu]; rfl, hdig⟩
    · exact takeWhile_append_stop digChar (natChars i) '_' (natChars j)
        (natChars_all_digits i) (by decide)
  intro n hn
  match x, hn with
  | Value.vlist m, hn => exact htuple m n hn
  | Value.vtuple m, hn => exact htuple m n hn
  | Value.vnone, hn | Value.vint _, hn | Value.vbool _, hn
  | Value.vstr _, hn | Value.vset _, hn | Value.vdict _, hn =>
    simp only [rowNames, List.mem_singleton] at hn
    subst hn
    refine ⟨k, natChars i, rfl, hk, rfl, natChars_digLed i,
      takeWhile_all_eq digChar (natChars i) (natChars_all_digits i)⟩

theorem rowNames_nodup (k : List Char) (i : Nat) (x : Value) :
    (rowNames k i x).Nodup := by
  have htuple : ∀ m : List Value,
      ((List.range m.length).map fun j =>
        collapseDots k ++ '_' :: (natChars i ++ '_' :: natChars j)).Nodup := by
    intro m
    refine List.Nodup.map ?_ (List.nodup_range _)
    intro j1 j2 he
    have h1 := List.append_cancel_left he
    simp only [List.cons.injEq, true_and] at h1
    have h2 := List.append_cancel_left h1
    simp only [List.cons.injEq, true_and] at h2
    exact natChars_injective j1 j2 h2
  match x with
  | Value.vlist m => exact htuple m
  | Value.vtuple m => exact htuple m
  | Value.vnone | Value.vint _ | Value.vbool _
  | Value.vstr _ | Value.vset _ | Value.vdict _ => exact List.nodup_singleton _

theorem rowNames_mem_ne (k : List Char) (hk : DigitFree k) (i i' : Nat)
    (hne : i ≠ i') (x y : Value) (n n' : List Char)
    (hn : n ∈ rowNames k i x) (hn' : n' ∈ rowNames k i' y) : n ≠ n' := by
  obtain ⟨A, s, rfl, hA, _, hs, hts⟩ := rowNames_shape k hk i x n hn
  obtain ⟨B, t, rfl, hB, _, ht, htt⟩ := rowNames_shape k hk i' y n' hn'
  intro he
  obtain ⟨_, h2⟩ := underscore_digit_split A B s t hA hB hs ht he
  rw [h2, htt] at hts
  exact hne (natChars_injective i i' hts.symm)

theorem rowNamesFrom_mem (k : List Char) :
    ∀ (l : List Value) (i0 : Nat) (n : List Char),
    n ∈ rowNamesFrom k i0 l → ∃ i x, i0 ≤ i ∧ n ∈ rowNames k i x
  | [], _, _, hn => by cases hn
  | x :: rest, i0, n, hn => by
    rcases List.mem_append.mp hn with hn | hn
    · exact ⟨i0, x, le_refl i0, hn⟩
    · obtain ⟨i, y, hi, hmem⟩ := rowNamesFrom_mem k rest (i0 + 1) n hn
      exact ⟨i, y, by omega, hmem⟩

theorem rowNamesFrom_nodup (k : List Char) (hk : DigitFree k) :
    ∀ (l : List Value) (i0 : Nat), (rowNamesFrom k i0 l).Nodup
  | [], _ => List.nodup_nil
  | x :: rest, i0 => by
    rw [rowNamesFrom, List.nodup_append]
    refine ⟨rowNames_nodup k i0 x, rowNamesFrom_nodup k hk rest (i0 + 1), ?_⟩
    intro n hn hn'
    obtain ⟨i, y, hi, hmem⟩ := rowNamesFrom_mem k rest (i0 + 1) n hn'
    exact rowNames_mem_ne k hk i0 i (by omega) x y n n hn hmem rfl

theorem scalarNames_shape (k : List Char) (hk : DigitFree k) (m : Nat) :
    ∀ n ∈ scalarNames k m, ∃ A s, n = A ++ '_' :: s ∧ DigitFree A ∧
      collapseDots A = collapseDots k ∧ DigLed s := by
  intro n hn
  simp only [scalarNames, List.mem_map, List.mem_range] at hn
  obtain ⟨i, _, rfl⟩ := hn
  exact ⟨collapseDots k, natChars i, rfl, collapseDots_digitFree k hk,
    collapseDots_idem k, natChars_digLed i⟩

theorem scalarNames_nodup (k : List Char) (m : Nat) : (scalarNames k m).Nodup := by
  refine List.Nodup.map ?_ (List.nodup_range _)
  intro i1 i2 he
  have h1 := List.append_cancel_left he
  simp only [List.cons.injEq, true_and] at h1
  exact natChars_injective i1 i2 h1

theorem plist_names_nodup (k : List Char) (v : Value) (fr : List Char) (log : PLog)
    (hk : DigitFree k)
    (h : TemplateGenerators.parameterize_list k v = .ok (fr, log)) :
    (log.map Prod.fst).Nodup := by
  rcases plist_names_cases k v fr log h with ⟨l, hl⟩ | ⟨n, hn⟩
  · rw [hl]
    exact rowNamesFrom_nodup k hk l 0
  · rw [hn]
    exact scalarNames_nodup k n

theorem plist_names_shape (k : List Char) (v : Value) (fr : List Char) (log : PLog)
    (hk : DigitFree k)
    (h : TemplateGenerators.parameterize_list k v = .ok (fr, log)) :
    ∀ n ∈ log.map Prod.fst, ∃ A s, n = A ++ '_' :: s ∧ DigitFree A ∧
      collapseDots A = collapseDots k ∧ DigLed s := by
  intro n hn
  rcases plist_names_cases k v fr log h with ⟨l, hl⟩ | ⟨m, hm⟩
  · rw [hl] at hn
    obtain ⟨i, x, _, hmem⟩ := rowNamesFrom_mem k l 0 n hn
    obtain ⟨A, s, he, hA, hcA, hs, _⟩ := rowNames_shape k hk i x n hmem
    exact ⟨A, s, he, hA, hcA, hs⟩
  · rw [hm] at hn
    exact scalarNames_shape k hk m n hn

/-! ## Scanner soundness -/

theorem isPfx_exists : ∀ (p s : List Char), isPfx p s = true → ∃ t, s = p ++ t
  | [], s, _ => ⟨s, rfl⟩
  | _ :: _, [], h => by cases h
  | p :: ps, c :: cs, h => by
    simp only [isPfx, Bool.and_eq_true, decide_eq_true_eq] at h
    obtain ⟨t, ht⟩ := isPfx_exists ps cs h.2
    exact ⟨t, by rw [h.1, ht]; rfl⟩

theorem mem_takeWhile_pred (p : Char → Bool) :
    ∀ (l : List Char) (c : Char), c ∈ l.takeWhile p → p c = true
  | [], c, h => by cases h
  | x :: xs, c, h => by
    by_cases hx : p x = true
    · rw [List.takeWhile_cons_of_pos hx] at h
      rcases List.mem_cons.mp h with rfl | h
      · exact hx
      · exact mem_takeWhile_pred p xs c h
    · simp only [Bool.not_eq_true] at hx
      rw [List.takeWhile_cons_of_neg (by simp [hx])] at h
      cases h

theorem mem_spaces (l : List Char) (c : Char) (h : c ∈ l.takeWhile (· = ' ')) :
    c = ' ' := by
  have := mem_takeWhile_pred (· = ' ') l c h
  simpa using this

theorem kindAt_parts (r2 : List Char) (k : TKind) (r3 : List Char)
    (h : kindAt r2 = some (k, r3)) : r2 = k.chars ++ '_' :: '_' :: r3 := by
  unfold kindAt at h
  split at h
  · rename_i hp
    obtain ⟨t, ht⟩ := isPfx_exists _ r2 hp
    cases h
    rw [ht]
    simp [TKind.chars]
  · split at h
    · rename_i hp
      obtain ⟨t, ht⟩ := isPfx_exists _ r2 hp
      cases h
      rw [ht]
      simp [TKind.chars]
    · split at h
      · rename_i hp
        obtain ⟨t, ht⟩ := isPfx_exists _ r2 hp
        cases h
        rw [ht]
        simp [TKind.chars]
      · cases h

theorem tok_assemble_qual (cs sp1 rst r2 : List Char) (k : TKind)
    (r3 w1 rw3 r4 w2 rw4 r5 sp2 rest : List Char)
    (e0 : cs = sp1 ++ rst) (hdw : rst = '{' :: r2)
    (h2 : r2 = k.chars ++ '_' :: '_' :: r3)
    (e3 : r3 = w1 ++ rw3) (hdw3 : rw3 = '.' :: r4)
    (e4 : r4 = w2 ++ rw4) (hdw4 : rw4 = '}' :: r5)
    (e5 : r5 = sp2 ++ rest) :
    cs = (MatchT.mk sp1 k (some w1) w2 sp2).g0 ++ rest := by
  subst e0 hdw h2 e3 hdw3 e4 hdw4 e5
  simp [MatchT.g0, MatchT.tok, MatchT.key]

theorem tok_assemble_noqual (cs sp1 rst r2 : List Char) (k : TKind)
    (r3 w1 rw3 r4 sp2 rest : List Char)
    (e0 : cs = sp1 ++ rst) (hdw : rst = '{' :: r2)
    (h2 : r2 = k.chars ++ '_' :: '_' :: r3)
    (e3 : r3 = w1 ++ rw3) (hdw3 : rw3 = '}' :: r4)
    (e4 : r4 = sp2 ++ rest) :
    cs = (MatchT.mk sp1 k none w1 sp2).g0 ++ rest := by
  subst e0 hdw h2 e3 hdw3 e4
  simp [MatchT.g0, MatchT.tok, MatchT.key]

theorem matchAt_parts (cs : List Char) (m : MatchT) (rest : List Char)
    (h : matchAt cs = some (m, rest)) :
    cs = m.g0 ++ rest ∧
    (∀ c ∈ m.sp1, c = ' ') ∧ (∀ c ∈ m.sp2, c = ' ') ∧
    m.col ≠ [] ∧ (∀ c ∈ m.col, wordChar c = true) ∧
    (∀ q, m.qual = some q → q ≠ [] ∧ ∀ c ∈ q, wordChar c = true) := by
  unfold matchAt at h
  split at h
  case _ r2 hdw =>
    split at h
    case _ k r3 hka =>
      split at h
      · cases h
      case _ hw1 =>
        split at h
        case _ r4 hdw3 =>
          split at h
          · cases h
          case _ hw2 =>
            split at h
            case _ r5 hdw4 =>
              cases h
              refine ⟨?_, fun c hc => mem_spaces cs c hc,
                fun c hc => mem_spaces r5 c hc,
                hw2, fun c hc => mem_takeWhile_pred wordChar r4 c hc,
                fun q hq => by
                  cases hq
                  exact ⟨hw1, fun c hc => mem_takeWhile_pred wordChar r3 c hc⟩⟩
              exact tok_assemble_qual cs _ _ r2 k r3 _ _ r4 _ _ r5 _ _
                (List.takeWhile_append_dropWhile (p := (· = ' ')) (l := cs)).symm
                hdw (kindAt_parts r2 k r3 hka)
                (List.takeWhile_append_dropWhile (p := wordChar) (l := r3)).symm
                hdw3
                (List.takeWhile_append_dropWhile (p := wordChar) (l := r4)).symm
                hdw4
                (List.takeWhile_append_dropWhile (p := (· = ' ')) (l := r5)).symm
            · cases h
        case _ r4 hdw3 =>
          cases h
          refine ⟨?_, fun c hc => mem_spaces cs c hc,
            fun c hc => mem_spaces r4 c hc,
            hw1, fun c hc => mem_takeWhile_pred wordChar r3 c hc,
            fun q hq => by cases hq⟩
          exact tok_assemble_noqual cs _ _ r2 k r3 _ _ r4 _ _
            (List.takeWhile_append_dropWhile (p := (· = ' ')) (l := cs)).symm
            hdw (kindAt_parts r2 k r3 hka)
            (List.takeWhile_append_dropWhile (p := wordChar) (l := r3)).symm
            hdw3
            (List.takeWhile_append_dropWhile (p := (· = ' ')) (l := r4)).symm
        · cases h
    · cases h
  · cases h

theorem scanF_succ (f : Nat) (cs : List Char) :
    scanF (f + 1) cs = (match matchAt cs with
      | some (m, rest) => m :: scanF f rest
      | none => match cs with | [] => [] | _ :: t => scanF f t) := rfl

theorem scanF_sound : ∀ (f : Nat) (cs : List Char) (m : MatchT), m ∈ scanF f cs →
    m.col ≠ [] ∧ (∀ c ∈ m.col, wordChar c = true) ∧
    (∀ q, m.qual = some q → q ≠ [] ∧ ∀ c ∈ q, wordChar c = true)
  | 0, _, _, h => by cases h
  | f + 1, cs, m, h => by
    rw [scanF_succ f cs] at h
    split at h
    case _ m' rest hma =>
      rcases List.mem_cons.mp h with rfl | h
      · obtain ⟨_, _, _, h4, h5, h6⟩ := matchAt_parts cs m rest hma
        exact ⟨h4, h5, h6⟩
      · exact scanF_sound f rest m h
    case _ =>
      split at h
      · cases h
      · exact scanF_sound f _ m h

theorem digitFree_append (a b : List Char) (ha : DigitFree a) (hb : DigitFree b) :
    DigitFree (a ++ b) := by
  intro c hc
  rcases List.mem_append.mp hc with hc | hc
  · exact ha c hc
  · exact hb c hc

theorem digitFree_cons (c : Char) (t : List Char) (hc : digChar c = false)
    (ht : DigitFree t) : DigitFree (c :: t) := by
  intro c' hc'
  rcases List.mem_cons.mp hc' with rfl | hc'
  · exact hc
  · exact ht c' hc'

theorem digitFree_nil : DigitFree [] := fun c hc => by cases hc

theorem digitFree_of_word (l : List Char) (h : ∀ c ∈ l, wordChar c = true) :
    DigitFree l :=
  fun c hc => wordChar_not_digit c (h c hc)

/-- Word characters and the fixed key punctuation are digit-free, so every
scanned key is digit-free and nonempty. -/
theorem scan_key_wf (m : MatchT)
    (hcol : ∀ c ∈ m.col, wordChar c = true)
    (hqual : ∀ q, m.qual = some q → q ≠ [] ∧ ∀ c ∈ q, wordChar c = true) :
    DigitFree m.key ∧ m.key ≠ [] := by
  obtain ⟨sp1, kind, qual, col, sp2⟩ := m
  simp only at hcol hqual
  have hkind : DigitFree kind.chars := by
    intro c hc
    cases kind <;> simp only [TKind.chars, List.mem_cons, List.not_mem_nil,
      or_false] at hc
    · rcases hc with rfl | rfl <;> decide
    · rcases hc with rfl | rfl | rfl | rfl | rfl | rfl <;> decide
    · rcases hc with rfl | rfl | rfl | rfl | rfl | rfl <;> decide
  rcases qual with _ | q
  · constructor
    · exact digitFree_append _ _
        (digitFree_append _ _ hkind
          (digitFree_cons '_' _ (by decide)
            (digitFree_cons '_' _ (by decide) digitFree_nil)))
        (digitFree_of_word col hcol)
    · simp only [MatchT.key]
      cases kind <;> simp [TKind.chars]
  · have hq := (hqual q rfl).2
    constructor
    · exact digitFree_append _ _
        (digitFree_append _ _ hkind
          (digitFree_cons '_' _ (by decide)
            (digitFree_cons '_' _ (by decide)
              (digitFree_append q ['.'] (digitFree_of_word q hq)
                (digitFree_cons '.' [] (by decide) digitFree_nil)))))
        (digitFree_of_word col hcol)
    · simp only [MatchT.key]
      cases kind <;> simp [TKind.chars]

/-- On success, the validator's final key list is exactly the keys of the
scanner's matches, in order. -/
theorem validate_go_keys (tp : Option PDict) :
    ∀ (ms : List MatchT) (q : List Char) (acc : List (List Char))
      (q' : List Char) (validated : List (List Char)),
    validateKeysCleanQuery.go tp ms q acc = .ok (q', validated) →
    validated = acc ++ ms.map MatchT.key
  | [], q, acc, q', validated, h => by
    simp only [validateKeysCleanQuery.go, Except.ok.injEq, Prod.mk.injEq] at h
    rw [← h.2]
    simp
  | mtc :: ms, q, acc, q', validated, h => by
    simp only [validateKeysCleanQuery.go] at h
    split at h
    · cases h
    · split at h
      · cases h
      · have := validate_go_keys tp ms _ _ _ _ h
        rw [this]
        simp

theorem uniqAux_subset [DecidableEq α] :
    ∀ (l seen : List α) (x : α), x ∈ uniqAux l seen → x ∈ l
  | [], _, _, h => by cases h
  | y :: l, seen, x, h => by
    by_cases hy : y ∈ seen
    · simp only [uniqAux, hy, if_pos] at h
      exact List.mem_cons_of_mem y (uniqAux_subset l seen x h)
    · simp only [uniqAux, hy, if_neg, ite_false] at h
      rcases List.mem_cons.mp h with rfl | h
      · exact List.mem_cons_self x l
      · exact List.mem_cons_of_mem y (uniqAux_subset l _ x h)

theorem uniq_subset [DecidableEq α] (l : List α) (x : α) (h : x ∈ uniq l) :
    x ∈ l :=
  uniqAux_subset l [] x h

/-- `get_key` with a nonempty legacy key returns it unchanged in the
single-column case. -/
theorem get_key_legacy (column k : List Char) (hk : k ≠ []) :
    TemplateGenerators.get_key column (some k) false = k := by
  simp [TemplateGenerators.get_key, hk]

/-- A successful `namesForKey` either generated nothing (empty `IN` /
`NOT IN` substitution) or the names of one `_parameterize_list` run on
the key itself (the nonempty legacy key). -/
theorem namesForKey_cases (tp : Option PDict) (k : List Char)
    (ns : List (List Char)) (hne : k ≠ []) (h : namesForKey tp k = .ok ns) :
    ns = [] ∨ ∃ v fr log, TemplateGenerators.parameterize_list k v = .ok (fr, log) ∧
      ns = log.map Prod.fst := by
  unfold namesForKey at h
  split at h
  case _ kind column _ =>
    split at h
    · cases h
    case _ v _ =>
      rcases hrt : TemplateGenerators.runTemplate kind column v (some k) with e | ⟨fr, pd⟩
      · rw [hrt] at h
        cases h
      · rw [hrt] at h
        simp only [Except.ok.injEq] at h
        subst h
        unfold TemplateGenerators.runTemplate at hrt
        split_ifs at hrt
        · unfold TemplateGenerators.in_column at hrt
          rw [get_key_legacy column k hne] at hrt
          split at hrt
          · cases hrt
            exact Or.inl rfl
          · split at hrt
            · cases hrt
            case _ keys log _ =>
              cases hrt
              exact Or.inr ⟨v, keys, log, by assumption, rfl⟩
        · unfold TemplateGenerators.not_in_column at hrt
          rw [get_key_legacy column k hne] at hrt
          split at hrt
          · cases hrt
            exact Or.inl rfl
          · split at hrt
            · cases hrt
            case _ keys log _ =>
              cases hrt
              exact Or.inr ⟨v, keys, log, by assumption, rfl⟩
        · unfold TemplateGenerators.values at hrt
          rw [get_key_legacy column k hne] at hrt
          split at hrt
          · cases hrt
          · split at hrt
            · cases hrt
            case _ keys log _ =>
              cases hrt
              exact Or.inr ⟨v, keys, log, by assumption, rfl⟩
  case _ =>
    cases h

/-- The names produced by the loop of `templateGeneratedNames` over
digit-free, nonempty keys with pairwise distinct dot-collapses are
duplicate-free, and every name splits below its key's collapse. -/
theorem tgn_go_names (d : QueryData) :
    ∀ (ks : List (List Char)) (names : List (List Char)),
    templateGeneratedNames.go d ks = .ok names →
    (∀ k ∈ ks, DigitFree k ∧ k ≠ []) →
    (ks.map collapseDots).Nodup →
    names.Nodup ∧ ∀ n ∈ names, ∃ k ∈ ks, ∃ A s, n = A ++ '_' :: s ∧
      DigitFree A ∧ collapseDots A = collapseDots k ∧ DigLed s
  | [], names, h, _, _ => by
    cases h
    exact ⟨List.nodup_nil, fun n hn => by cases hn⟩
  | k :: ks, names, h, hwf, hcoll => by
    simp only [templateGeneratedNames.go] at h
    split at h
    · cases h
    case _ ns hns =>
      split at h
      · cases h
      case _ rest hrest =>
        cases h
        simp only [List.map_cons, List.nodup_cons] at hcoll
        obtain ⟨hrn, hrs⟩ := tgn_go_names d ks rest hrest
          (fun k' hk' => hwf k' (by simp [hk'])) hcoll.2
        have hkwf := hwf k (by simp)
        have hnsn : ns.Nodup ∧ ∀ n ∈ ns, ∃ A s, n = A ++ '_' :: s ∧
            DigitFree A ∧ collapseDots A = collapseDots k ∧ DigLed s := by
          rcases namesForKey_cases d.template_params k ns hkwf.2 hns with rfl | ⟨v, fr, log, hpl, rfl⟩
          · exact ⟨List.nodup_nil, fun n hn => by cases hn⟩
          · exact ⟨plist_names_nodup k v fr log hkwf.1 hpl,
              plist_names_shape k v fr log hkwf.1 hpl⟩
        rw [List.nodup_append]
        refine ⟨⟨hnsn.1, hrn, ?_⟩, ?_⟩
        · intro n hn hn'
          obtain ⟨A, s, he, hA, hcA, hs⟩ := hnsn.2 n hn
          obtain ⟨k', hk', A', s', he', hA', hcA', hs'⟩ := hrs n hn'
          obtain ⟨h1, _⟩ := underscore_digit_split A A' s s' hA hA' hs hs'
            (he.symm.trans he')
          apply hcoll.1
          rw [← hcA, h1, hcA']
          exact List.mem_map_of_mem collapseDots hk'
        · intro n hn
          rcases List.mem_append.mp hn with hn | hn
          · obtain ⟨A, s, he, hA, hcA, hs⟩ := hnsn.2 n hn
            exact ⟨k, by simp, A, s, he, hA, hcA, hs⟩
          · obtain ⟨k', hk', A', s', he', hA', hcA', hs'⟩ := hrs n hn
            exact ⟨k', by simp [hk'], A', s', he', hA', hcA', hs'⟩

/-- C3 counterexample.  The claim says generated bind-parameter names are
pairwise unique within a single expanded query.  But the parameter namer
collapses `.` to `_` in the key, so the two distinct tokens `{in__a.col}`
and `{in__a_col}` both generate the name `in__a_col_0` in one query. -/
theorem c3_counterexample :
    templateGeneratedNames
        { query := "\x7bin__a.col\x7d \x7bin__a_col\x7d".data,
          template_params := some [("in__a.col".data, Value.vlist [Value.vint 1]),
            ("in__a_col".data, Value.vlist [Value.vint 2])] } =
      .ok ["in__a_col_0".data, "in__a_col_0".data] ∧
    ¬ (["in__a_col_0".data, "in__a_col_0".data] : List (List Char)).Nodup :=
  ⟨by rfl, by simp⟩

/-- C3 amended.  Within a single expanded query the generated
bind-parameter names are pairwise unique, provided the dot-collapsed
(`.` replaced by `_`) canonical keys of the query's distinct template
tokens are pairwise distinct; without that proviso two tokens such as
`in__a.col` and `in__a_col` collide (see the counterexample). -/
theorem c3_unique_bind_names (d : QueryData) (ks names : List (List Char))
    (hks : validatedUniqKeys d = .ok ks)
    (hnames : templateGeneratedNames d = .ok names)
    (hcoll : (ks.map collapseDots).Nodup) : names.Nodup := by
  have hgo : templateGeneratedNames.go d ks = .ok names := by
    unfold templateGeneratedNames at hnames
    rw [hks] at hnames
    exact hnames
  have hkwf : ∀ k ∈ ks, DigitFree k ∧ k ≠ [] := by
    unfold validatedUniqKeys at hks
    split at hks
    · cases hks
    case _ q' validated hval =>
      cases hks
      intro k hk
      have hkv : k ∈ validated := uniq_subset validated k hk
      have hkeys := validate_go_keys d.template_params (scan d.query) d.query []
        q' validated hval
      rw [hkeys] at hkv
      simp only [List.nil_append, List.mem_map] at hkv
      obtain ⟨m, hm, rfl⟩ := hkv
      obtain ⟨_, hcol, hqual⟩ := scanF_sound _ _ m hm
      exact scan_key_wf m hcol hqual
  exact (tgn_go_names d ks names hgo hkwf hcoll).1

/-- Witness for the amended C3. -/
theorem c3_unique_bind_names_witness :
    validatedUniqKeys
        { query := "SELECT * FROM t WHERE \x7bin__col\x7d".data,
          template_params := some [("in__col".data, Value.vlist [Value.vint 1, Value.vint 2])] } =
      .ok ["in__col".data] ∧
    templateGeneratedNames
        { query := "SELECT * FROM t WHERE \x7bin__col\x7d".data,
          template_params := some [("in__col".data, Value.vlist [Value.vint 1, Value.vint 2])] } =
      .ok ["in__col_0".data, "in__col_1".data] ∧
    (["in__col".data].map collapseDots).Nodup ∧
    (["in__col_0".data, "in__col_1".data] : List (List Char)).Nodup :=
  ⟨by rfl, by rfl, by simp,
    c3_unique_bind_names
      { query := "SELECT * FROM t WHERE \x7bin__col\x7d".data,
        template_params := some [("in__col".data, Value.vlist [Value.vint 1, Value.vint 2])] }
      ["in__col".data] ["in__col_0".data, "in__col_1".data]
      (by rfl) (by rfl) (by simp)⟩

/-! ## Substring occurrence lemmas (C4) -/

theorem sub_nil (t : List Char) (h : Sub t []) : t = [] := by
  obtain ⟨a, b, he⟩ := h
  rcases List.append_eq_nil.mp he with ⟨h1, h2⟩
  exact (List.append_eq_nil.mp h1).2

theorem pfx_nil (t : List Char) (h : Pfx t []) : t = [] := by
  obtain ⟨b, he⟩ := h
  exact (List.append_eq_nil.mp he).1

theorem sub_of_pfx (t l : List Char) (h : Pfx t l) : Sub t l := by
  obtain ⟨b, he⟩ := h
  exact ⟨[], b, he⟩

theorem sub_cons_cases (t : List Char) (c : Char) (l : List Char)
    (h : Sub t (c :: l)) : Pfx t (c :: l) ∨ Sub t l := by
  obtain ⟨a, b, he⟩ := h
  match a, he with
  | [], he => exact Or.inl ⟨b, he⟩
  | a0 :: a', he =>
    simp only [List.cons_append, List.cons.injEq] at he
    exact Or.inr ⟨a', b, he.2⟩

theorem pfx_append_cases (w x y : List Char) (h : Pfx w (x ++ y)) :
    Pfx w x ∨ ∃ w2, w = x ++ w2 ∧ Pfx w2 y := by
  obtain ⟨b, he⟩ := h
  rcases List.append_eq_append_iff.mp he with ⟨a', ha1, ha2⟩ | ⟨c', hc1, hc2⟩
  · exact Or.inl ⟨a', ha1.symm⟩
  · exact Or.inr ⟨c', hc1, ⟨b, hc2.symm⟩⟩

theorem sub_crossing (t x y : List Char) (h : Sub t (x ++ y)) :
    Sub t x ∨ Sub t y ∨
      ∃ t1 t2, t = t1 ++ t2 ∧ t1 ≠ [] ∧ t2 ≠ [] ∧ Sfx t1 x ∧ Pfx t2 y := by
  induction x generalizing t with
  | nil => exact Or.inr (Or.inl (by simpa using h))
  | cons c x' ih =>
    rw [List.cons_append] at h
    rcases sub_cons_cases t c (x' ++ y) h with hp | hs
    · match t, hp with
      | [], _ => exact Or.inl ⟨[], c :: x', rfl⟩
      | t0 :: t', hp =>
        obtain ⟨b, he⟩ := hp
        simp only [List.cons_append, List.cons.injEq] at he
        obtain ⟨rfl, he⟩ := he
        rcases pfx_append_cases t' x' y ⟨b, he⟩ with hp' | ⟨w2, rfl, hw2⟩
        · obtain ⟨b', he'⟩ := hp'
          exact Or.inl ⟨[], b', by rw [← he']; rfl⟩
        · rcases w2 with _ | ⟨w0, w2'⟩
          · exact Or.inl ⟨[], [], by simp⟩
          · exact Or.inr (Or.inr ⟨t0 :: x', w0 :: w2', by simp, by simp, by simp,
              ⟨[], rfl⟩, hw2⟩)
    · rcases ih t hs with h1 | h1 | ⟨t1, t2, he, h1, h2, ⟨u, hu⟩, h4⟩
      · obtain ⟨a, b, he⟩ := h1
        exact Or.inl ⟨c :: a, b, by rw [← he]; rfl⟩
      · exact Or.inr (Or.inl h1)
      · exact Or.inr (Or.inr ⟨t1, t2, he, h1, h2, ⟨c :: u, by rw [← hu]; rfl⟩, h4⟩)

theorem suffix_singleton_mem : ∀ (u t1 z : List Char) (c : Char), t1 ≠ [] →
    u ++ t1 = z ++ [c] → c ∈ t1
  | [], t1, z, c, _, he => by
    rw [List.nil_append] at he
    rw [he]
    simp
  | a :: u', t1, z, c, hne, he => by
    match z, he with
    | [], he =>
      rw [List.cons_append, List.nil_append] at he
      injection he with h1 h2
      rcases List.append_eq_nil.mp h2 with ⟨_, h3⟩
      exact absurd h3 hne
    | b :: z', he =>
      rw [List.cons_append, List.cons_append] at he
      injection he with h1 h2
      exact suffix_singleton_mem u' t1 z' c hne h2

theorem first_occurrence : ∀ (l : List Char) (c : Char), c ∈ l →
    ∃ s t, l = s ++ c :: t ∧ c ∉ s
  | [], c, h => by cases h
  | x :: l', c, h => by
    by_cases hx : x = c
    · exact ⟨[], l', by rw [hx]; rfl, by simp⟩
    · rcases List.mem_cons.mp h with he | h'
      · exact absurd he.symm hx
      · obtain ⟨s, t, hst, hns⟩ := first_occurrence l' c h'
        exact ⟨x :: s, t, by rw [hst]; rfl, by
          simp only [List.mem_cons, not_or]
          exact ⟨fun he => hx he.symm, hns⟩⟩

/-- Unique split at a character absent from both prefixes. -/
theorem char_split : ∀ (X Z Y W : List Char) (d : Char), d ∉ X → d ∉ Z →
    X ++ d :: Y = Z ++ d :: W → X = Z ∧ Y = W
  | [], [], Y, W, d, _, _, he => by
    simp only [List.nil_append, List.cons.injEq] at he
    exact ⟨rfl, he.2⟩
  | [], z :: Z', Y, W, d, _, hZ, he => by
    simp only [List.nil_append, List.cons_append, List.cons.injEq] at he
    exact absurd (by simp [he.1]) hZ
  | x :: X', [], Y, W, d, hX, _, he => by
    simp only [List.cons_append, List.nil_append, List.cons.injEq] at he
    exact absurd (by simp [he.1]) hX
  | x :: X', z :: Z', Y, W, d, hX, hZ, he => by
    simp only [List.cons_append, List.cons.injEq] at he
    obtain ⟨rfl, he'⟩ := he
    obtain ⟨h1, h2⟩ := char_split X' Z' Y W d (fun h => hX (by simp [h]))
      (fun h => hZ (by simp [h])) he'
    exact ⟨by rw [h1], h2⟩

theorem sub_drop (t l : List Char) (n : Nat) (h : Sub t (l.drop n)) : Sub t l := by
  obtain ⟨a, b, he⟩ := h
  refine ⟨l.take n ++ a, b, ?_⟩
  conv_rhs => rw [← List.take_append_drop n l]
  rw [← he]
  simp

theorem mem_of_sub (c : Char) (t s : List Char) (hc : c ∈ t) (h : Sub t s) :
    c ∈ s := by
  obtain ⟨a, b, he⟩ := h
  rw [← he]
  simp [hc]

/-! ## Token-shape facts -/

/-- A well-shaped token: opening brace, brace-free interior, closing brace. -/
def TokShaped (tok : List Char) : Prop :=
  ∃ mid, tok = '{' :: mid ++ ['}'] ∧ BraceFree mid

theorem tokShaped_ne_nil (tok : List Char) (h : TokShaped tok) : tok ≠ [] := by
  obtain ⟨mid, rfl, _⟩ := h
  simp

theorem tokShaped_mem_open (tok : List Char) (h : TokShaped tok) : '{' ∈ tok := by
  obtain ⟨mid, rfl, _⟩ := h
  simp

/-- A token inside a token is the whole token. -/
theorem tok_sub_tok (tok tokM : List Char) (ht : TokShaped tok)
    (hm : TokShaped tokM) (h : Sub tok tokM) : tok = tokM := by
  obtain ⟨mid2, rfl, hb2⟩ := ht
  obtain ⟨mid, rfl, hb⟩ := hm
  obtain ⟨a, b, he⟩ := h
  match a, he with
  | [], he =>
    rw [List.nil_append, List.cons_append, List.cons_append] at he
    injection he with h1 h2
    rw [List.append_assoc, List.singleton_append] at h2
    obtain ⟨h1, h2⟩ := char_split mid2 mid b [] '}'
      (fun hc => ((hb2 '}' hc).2) rfl) (fun hc => ((hb '}' hc).2) rfl) h2
    rw [h1]
  | a0 :: a', he =>
    rw [List.cons_append, List.cons_append] at he
    injection he with h1 h2
    exfalso
    have hmem : '{' ∈ mid.append ['}'] := by
      rw [← h2]
      simp
    rcases List.mem_append.mp hmem with hc | hc
    · exact ((hb '{' hc).1) rfl
    · simp only [List.mem_singleton] at hc
      cases hc

/-! ## Replacement transfer lemmas (C4)

`expandLoop` splices `' ' ++ fragment ++ ' '` over `'{key}'`, and the
validator splices the stripped token over each padded match.  The lemmas
below track where a token-shaped substring of the result can come from. -/

theorem sub_cons_of_sub (t : List Char) (c : Char) (l : List Char)
    (h : Sub t l) : Sub t (c :: l) := by
  obtain ⟨a, b, he⟩ := h
  exact ⟨c :: a, b, by rw [← he]; rfl⟩

theorem pfx_cons_head (t : List Char) (c : Char) (l : List Char)
    (hne : t ≠ []) (h : Pfx t (c :: l)) : ∃ t', t = c :: t' ∧ Pfx t' l := by
  rcases t with _ | ⟨t0, t'⟩
  · exact absurd rfl hne
  · obtain ⟨u, hu⟩ := h
    rw [List.cons_append] at hu
    injection hu with h1 h2
    exact ⟨t', by rw [h1], ⟨u, h2⟩⟩

theorem isPfx_of_pfx : ∀ (p s : List Char), Pfx p s → isPfx p s = true
  | [], _, _ => rfl
  | p0 :: ps, s, h => by
    obtain ⟨u, hu⟩ := h
    rw [List.cons_append] at hu
    subst hu
    simp only [isPfx, Bool.and_eq_true, decide_eq_true_eq]
    exact ⟨trivial, isPfx_of_pfx ps (ps ++ u) ⟨u, rfl⟩⟩

theorem replaceAllF_succ (f : Nat) (s p r : List Char) :
    replaceAllF (f + 1) s p r =
      if p ≠ [] ∧ isPfx p s then r ++ replaceAllF f (s.drop p.length) p r
      else match s with | [] => [] | c :: t => c :: replaceAllF f t p r := rfl

/-- A nonempty space-free prefix of the result of replacing with a
space-led splice is already a prefix of the input. -/
theorem pfx_replace_space (p r0 : List Char) :
    ∀ (f : Nat) (s w : List Char), SpaceFree w → w ≠ [] →
      Pfx w (replaceAllF f s p (' ' :: r0 ++ [' '])) → Pfx w s
  | 0, _, _, _, _, h => h
  | f + 1, s, w, hsp, hne, h => by
    rw [replaceAllF_succ] at h
    split at h
    · exfalso
      rw [List.cons_append, List.cons_append] at h
      obtain ⟨w', hw', _⟩ := pfx_cons_head w ' ' _ hne h
      exact hsp ' ' (by rw [hw']; exact List.mem_cons_self ' ' w') rfl
    · rcases s with _ | ⟨c, t⟩
      · exact absurd (pfx_nil w h) hne
      · obtain ⟨w', hw', hp'⟩ := pfx_cons_head w c _ hne h
        subst hw'
        rcases w' with _ | ⟨w1, w2⟩
        · exact ⟨t, rfl⟩
        · have hp2 := pfx_replace_space p r0 f t (w1 :: w2)
            (fun d hd => hsp d (List.mem_cons_of_mem c hd)) (by simp) hp'
          obtain ⟨u, hu⟩ := hp2
          exact ⟨u, by rw [List.cons_append, hu]⟩

/-- A nonempty space-free substring of the result of replacing with the
splice `' ' ++ r0 ++ ' '` occurs in the input or inside `r0`. -/
theorem sub_replace_space (p r0 : List Char) :
    ∀ (f : Nat) (s tok : List Char), SpaceFree tok → tok ≠ [] →
      Sub tok (replaceAllF f s p (' ' :: r0 ++ [' '])) → Sub tok s ∨ Sub tok r0
  | 0, _, _, _, _, h => Or.inl h
  | f + 1, s, tok, hsp, hne, h => by
    rw [replaceAllF_succ] at h
    split at h
    · rw [List.cons_append, List.cons_append, List.append_assoc,
        List.singleton_append] at h
      rcases sub_cons_cases tok ' ' _ h with hp | hs
      · obtain ⟨t', ht', _⟩ := pfx_cons_head tok ' ' _ hne hp
        exact absurd rfl (hsp ' ' (by rw [ht']; exact List.mem_cons_self ' ' t'))
      · rcases sub_crossing tok r0 (' ' :: replaceAllF f (s.drop p.length) p
            (' ' :: r0 ++ [' '])) hs with h1 | h1 | ⟨t1, t2, heq, _, h2ne, _, hpf⟩
        · exact Or.inr h1
        · rcases sub_cons_cases tok ' ' _ h1 with hp | hs'
          · obtain ⟨t', ht', _⟩ := pfx_cons_head tok ' ' _ hne hp
            exact absurd rfl (hsp ' ' (by rw [ht']; exact List.mem_cons_self ' ' t'))
          · rcases sub_replace_space p r0 f (s.drop p.length) tok hsp hne hs' with
              h2 | h2
            · exact Or.inl (sub_drop tok s p.length h2)
            · exact Or.inr h2
        · obtain ⟨t2', ht2', _⟩ := pfx_cons_head t2 ' ' _ h2ne hpf
          refine absurd rfl (hsp ' ' ?_)
          rw [heq, ht2']
          exact List.mem_append_right t1 (List.mem_cons_self ' ' t2')
    · rcases s with _ | ⟨c, t⟩
      · exact absurd (sub_nil tok h) hne
      · rcases sub_cons_cases tok c _ h with hp | hs
        · obtain ⟨tok', htok', hp'⟩ := pfx_cons_head tok c _ hne hp
          subst htok'
          rcases tok' with _ | ⟨u1, u2⟩
          · exact Or.inl ⟨[], t, rfl⟩
          · have hp2 := pfx_replace_space p r0 f t (u1 :: u2)
              (fun d hd => hsp d (List.mem_cons_of_mem c hd)) (by simp) hp'
            obtain ⟨u, hu⟩ := hp2
            exact Or.inl ⟨[], u, by rw [List.nil_append, List.cons_append, hu]⟩
        · rcases sub_replace_space p r0 f t tok hsp hne hs with h2 | h2
          · exact Or.inl (sub_cons_of_sub tok c t h2)
          · exact Or.inr h2

/-- Replacing `p` by a space-padded splice that does not contain `p`
removes every occurrence: with enough fuel, no occurrence of the
space-free pattern survives, and any surviving part-of-`p` prefix of the
result was already a prefix of the input. -/
theorem replace_removes (p r0 : List Char) (hp : p ≠ []) (hsp : SpaceFree p)
    (hr0 : ¬ Sub p r0) :
    ∀ (f : Nat) (s : List Char), s.length < f →
      (∀ x w, x ++ w = p → w ≠ [] →
        Pfx w (replaceAllF f s p (' ' :: r0 ++ [' '])) → Pfx w s) ∧
      ¬ Sub p (replaceAllF f s p (' ' :: r0 ++ [' ']))
  | 0, s, hf => absurd hf (Nat.not_lt_zero _)
  | f + 1, s, hf => by
    have hwmem : ∀ x w : List Char, x ++ w = p → ∀ c ∈ w, c ∈ p := by
      intro x w hxw c hc
      rw [← hxw]
      exact List.mem_append_right x hc
    by_cases hg : isPfx p s = true
    · have hrw : replaceAllF (f + 1) s p (' ' :: r0 ++ [' ']) =
          (' ' :: r0 ++ [' ']) ++ replaceAllF f (s.drop p.length) p
            (' ' :: r0 ++ [' ']) := by
        rw [replaceAllF_succ, if_pos ⟨hp, hg⟩]
      have hflt : (s.drop p.length).length < f := by
        obtain ⟨t, ht⟩ := isPfx_exists p s hg
        rcases p with _ | ⟨p0, ps⟩
        · exact absurd rfl hp
        · subst ht
          rw [List.drop_left]
          rw [List.length_append] at hf
          simp only [List.length_cons] at hf ⊢
          omega
      obtain ⟨ihaux, ihmain⟩ := replace_removes p r0 hp hsp hr0 f
        (s.drop p.length) hflt
      constructor
      · intro x w hxw hwne hpfx
        rw [hrw, List.cons_append, List.cons_append] at hpfx
        obtain ⟨w', hw', _⟩ := pfx_cons_head w ' ' _ hwne hpfx
        exact absurd rfl (hsp ' ' (hwmem x w hxw ' '
          (by rw [hw']; exact List.mem_cons_self ' ' w')))
      · intro hsub
        rw [hrw, List.cons_append, List.cons_append, List.append_assoc,
          List.singleton_append] at hsub
        rcases sub_cons_cases p ' ' _ hsub with hpf | hs
        · obtain ⟨t', ht', _⟩ := pfx_cons_head p ' ' _ hp hpf
          exact absurd rfl (hsp ' ' (by rw [ht']; exact List.mem_cons_self ' ' t'))
        · rcases sub_crossing p r0 _ hs with h1 | h1 | ⟨t1, t2, heq, _, h2ne, _, hpf⟩
          · exact hr0 h1
          · rcases sub_cons_cases p ' ' _ h1 with hpf | hs'
            · obtain ⟨t', ht', _⟩ := pfx_cons_head p ' ' _ hp hpf
              exact absurd rfl (hsp ' '
                (by rw [ht']; exact List.mem_cons_self ' ' t'))
            · exact ihmain hs'
          · obtain ⟨t2', ht2', _⟩ := pfx_cons_head t2 ' ' _ h2ne hpf
            refine absurd rfl (hsp ' ' ?_)
            rw [heq, ht2']
            exact List.mem_append_right t1 (List.mem_cons_self ' ' t2')
    · rcases s with _ | ⟨c, t⟩
      · have hrw : replaceAllF (f + 1) [] p (' ' :: r0 ++ [' ']) = [] := by
          rw [replaceAllF_succ, if_neg (fun hc => hg hc.2)]
        rw [hrw]
        exact ⟨fun x w _ hwne hpfx => absurd (pfx_nil w hpfx) hwne,
          fun hsub => absurd (sub_nil p hsub) hp⟩
      · have hrw : replaceAllF (f + 1) (c :: t) p (' ' :: r0 ++ [' ']) =
            c :: replaceAllF f t p (' ' :: r0 ++ [' ']) := by
          rw [replaceAllF_succ, if_neg (fun hc => hg hc.2)]
        have hflt : t.length < f := by
          simp only [List.length_cons] at hf
          omega
        obtain ⟨ihaux, ihmain⟩ := replace_removes p r0 hp hsp hr0 f t hflt
        rw [hrw]
        constructor
        · intro x w hxw hwne hpfx
          obtain ⟨w', hw', hp'⟩ := pfx_cons_head w c _ hwne hpfx
          subst hw'
          rcases w' with _ | ⟨w1, w2⟩
          · exact ⟨t, rfl⟩
          · have hp2 := ihaux (x ++ [c]) (w1 :: w2)
              (by rw [← hxw]; simp) (by simp) hp'
            obtain ⟨u, hu⟩ := hp2
            exact ⟨u, by rw [List.cons_append, hu]⟩
        · intro hsub
          rcases sub_cons_cases p c _ hsub with hpf | hs
          · obtain ⟨p', hpeq, hp'⟩ := pfx_cons_head p c _ hp hpf
            rcases p' with _ | ⟨q1, q2⟩
            · rw [hpeq] at hg
              exact hg (by simp [isPfx])
            · have hpfx2 := ihaux [c] (q1 :: q2) (by rw [hpeq]; rfl) (by simp) hp'
              refine hg (isPfx_of_pfx p (c :: t) ?_)
              obtain ⟨u, hu⟩ := hpfx2
              exact ⟨u, by rw [hpeq, List.cons_append, hu]⟩
          · exact ihmain hs

/-- Token-shape helpers for the cleaning pass. -/
theorem pfx_tok_tok (t1 t2 : List Char) (h1 : TokShaped t1) (h2 : TokShaped t2)
    (h : Pfx t1 t2) : t1 = t2 := by
  obtain ⟨m1, rfl, hb1⟩ := h1
  obtain ⟨m2, rfl, hb2⟩ := h2
  obtain ⟨u, hu⟩ := h
  rw [List.cons_append, List.cons_append] at hu
  injection hu with _ hu
  rw [List.append_assoc, List.singleton_append] at hu
  have hu' : m1 ++ '}' :: u = m2 ++ '}' :: [] := by
    rw [hu]
    rfl
  obtain ⟨he, _⟩ := char_split m1 m2 u [] '}'
    (fun hc => ((hb1 '}' hc).2) rfl) (fun hc => ((hb2 '}' hc).2) rfl) hu'
  rw [he]

/-- No closing brace occurs in a proper prefix of a well-shaped token. -/
theorem proper_pfx_no_close (tok t1 t2 : List Char) (ht : TokShaped tok)
    (he : t1 ++ t2 = tok) (h2 : t2 ≠ []) : '}' ∉ t1 := by
  obtain ⟨mid, rfl, hb⟩ := ht
  intro hmem
  have hmm : '}' ∉ ('{' :: mid) := by
    intro hc
    rcases List.mem_cons.mp hc with hc | hc
    · cases hc
    · exact ((hb '}' hc).2) rfl
  rw [show ('{' :: mid ++ ['}'] : List Char) = ('{' :: mid) ++ ['}'] from rfl] at he
  rcases pfx_append_cases t1 ('{' :: mid) ['}'] ⟨t2, he⟩ with hpf | ⟨w2, ht1, hw2⟩
  · obtain ⟨u, hu⟩ := hpf
    exact hmm (by rw [← hu]; exact List.mem_append_left u hmem)
  · obtain ⟨u, hu⟩ := hw2
    rcases w2 with _ | ⟨c, w2'⟩
    · rw [List.append_nil] at ht1
      exact hmm (ht1 ▸ hmem)
    · rw [List.cons_append] at hu
      injection hu with hc hu
      rcases List.append_eq_nil.mp hu with ⟨rfl, rfl⟩
      subst ht1
      rw [List.append_assoc] at he
      have := List.append_cancel_left he
      simp only [List.singleton_append, List.cons.injEq] at this
      exact h2 this.2

/-- The opening brace of a well-shaped token occurs only at its head. -/
theorem tokShaped_open_unique (tok : List Char) (ht : TokShaped tok) :
    ∃ rest, tok = '{' :: rest ∧ '{' ∉ rest ∧ rest ≠ [] := by
  obtain ⟨mid, rfl, hb⟩ := ht
  refine ⟨mid ++ ['}'], rfl, ?_, by simp⟩
  intro hc
  rcases List.mem_append.mp hc with hc | hc
  · exact ((hb '{' hc).1) rfl
  · simp only [List.mem_singleton] at hc
    cases hc

/-- A token-shaped substring of the result of replacing `p` by the
well-shaped token `tokM` occurs in the input or is `tokM` itself. -/
theorem sub_replace_tok (tok tokM : List Char) (ht : TokShaped tok)
    (hm : TokShaped tokM) :
    ∀ (f : Nat) (s p : List Char),
      (∀ x w, x ++ w = tok → w ≠ [] → Pfx w (replaceAllF f s p tokM) →
        Pfx w s ∨ (tok = tokM ∧ x = [])) ∧
      (Sub tok (replaceAllF f s p tokM) → Sub tok s ∨ tok = tokM)
  | 0, s, p => ⟨fun _ _ _ _ h => Or.inl h, fun h => Or.inl h⟩
  | f + 1, s, p => by
    by_cases hg : p ≠ [] ∧ isPfx p s = true
    · have hrw : replaceAllF (f + 1) s p tokM =
          tokM ++ replaceAllF f (s.drop p.length) p tokM := by
        rw [replaceAllF_succ, if_pos hg]
      obtain ⟨ihaux, ihmain⟩ := sub_replace_tok tok tokM ht hm f (s.drop p.length) p
      constructor
      · intro x w hxw hwne hpfx
        rw [hrw] at hpfx
        rcases pfx_append_cases w tokM _ hpfx with hpf | ⟨w2, hw2eq, hpf2⟩
        · rcases x with _ | ⟨x0, x'⟩
          · rw [List.nil_append] at hxw
            subst hxw
            exact Or.inr ⟨pfx_tok_tok w tokM ht hm hpf, rfl⟩
          · exfalso
            obtain ⟨restM, hM, _, hMne⟩ := tokShaped_open_unique tokM hm
            rw [hM] at hpf
            obtain ⟨w', hw', _⟩ := pfx_cons_head w '{' restM hwne hpf
            obtain ⟨rest, hT, hTfree, _⟩ := tokShaped_open_unique tok ht
            rw [← hxw, hw'] at hT
            rw [List.cons_append] at hT
            injection hT with _ hT
            have hx : '{' ∈ x' ++ '{' :: w' :=
              List.mem_append_right x' (List.mem_cons_self '{' w')
            rw [hT] at hx
            exact hTfree hx
        · have hsubM : Sub tokM tok := ⟨x, w2, by rw [← hxw, hw2eq]; simp⟩
          have heqM := tok_sub_tok tokM tok hm ht hsubM
          have hlen : x.length + (tokM.length + w2.length) = tokM.length := by
            have : (x ++ (tokM ++ w2)).length = tok.length := by
              rw [← hxw, hw2eq]
            simp only [List.length_append] at this
            rw [this, heqM]
          have hx : x = [] := List.length_eq_zero.mp (by omega)
          have hw2nil : w2 = [] := List.length_eq_zero.mp (by omega)
          subst hx hw2nil
          exact Or.inr ⟨heqM.symm, rfl⟩
      · intro hsub
        rw [hrw] at hsub
        rcases sub_crossing tok tokM _ hsub with h1 | h1 |
            ⟨t1, t2, heq, h1ne, h2ne, ⟨u, hu⟩, _⟩
        · exact Or.inr (tok_sub_tok tok tokM ht hm h1)
        · rcases ihmain h1 with h2 | h2
          · exact Or.inl (sub_drop tok s p.length h2)
          · exact Or.inr h2
        · exfalso
          obtain ⟨midM, hMeq, _⟩ := hm
          have hclose : '}' ∈ t1 := by
            refine suffix_singleton_mem u t1 ('{' :: midM) '}' h1ne ?_
            rw [hu, hMeq]
          exact proper_pfx_no_close tok t1 t2 ht heq.symm h2ne hclose
    · rcases s with _ | ⟨c, t⟩
      · have hrw : replaceAllF (f + 1) [] p tokM = [] := by
          rw [replaceAllF_succ, if_neg hg]
        rw [hrw]
        exact ⟨fun x w _ hwne hpfx => absurd (pfx_nil w hpfx) hwne,
          fun hsub => absurd (sub_nil tok hsub) (tokShaped_ne_nil tok ht)⟩
      · have hrw : replaceAllF (f + 1) (c :: t) p tokM =
            c :: replaceAllF f t p tokM := by
          rw [replaceAllF_succ, if_neg hg]
        obtain ⟨ihaux, ihmain⟩ := sub_replace_tok tok tokM ht hm f t p
        rw [hrw]
        constructor
        · intro x w hxw hwne hpfx
          obtain ⟨w', hw', hp'⟩ := pfx_cons_head w c _ hwne hpfx
          subst hw'
          rcases w' with _ | ⟨w1, w2⟩
          · exact Or.inl ⟨t, rfl⟩
          · rcases ihaux (x ++ [c]) (w1 :: w2) (by rw [← hxw]; simp) (by simp)
                hp' with hpf | ⟨_, hxc⟩
            · obtain ⟨u, hu⟩ := hpf
              exact Or.inl ⟨u, by rw [List.cons_append, hu]⟩
            · exact absurd hxc (by simp)
        · intro hsub
          rcases sub_cons_cases tok c _ hsub with hpf | hs
          · obtain ⟨tok', htok', hp'⟩ := pfx_cons_head tok c _
              (tokShaped_ne_nil tok ht) hpf
            have htne : tok' ≠ [] := by
              obtain ⟨mid, hT, _⟩ := ht
              rw [hT] at htok'
              injection htok' with _ h2
              rw [← h2]
              simp
            rcases ihaux [c] tok' (by rw [htok']; rfl) htne hp' with hpf2 | ⟨_, hc⟩
            · obtain ⟨u, hu⟩ := hpf2
              exact Or.inl ⟨[], u, by rw [htok']; rw [List.nil_append,
                List.cons_append, hu]⟩
            · cases hc
          · rcases ihmain hs with h2 | h2
            · exact Or.inl (sub_cons_of_sub tok c t h2)
            · exact Or.inr h2

/-! ## Character classes of keys and generated fragments (C4) -/

theorem wordChar_not_brace (c : Char) (h : wordChar c = true) :
    c ≠ '{' ∧ c ≠ '}' := by
  constructor <;> rintro rfl <;> exact absurd h (by decide)

theorem wordChar_not_space (c : Char) (h : wordChar c = true) : c ≠ ' ' := by
  rintro rfl
  exact absurd h (by decide)

theorem kindChars_word (k : TKind) : ∀ c ∈ k.chars, wordChar c = true := by
  intro c hc
  cases k <;> simp only [TKind.chars, List.mem_cons, List.not_mem_nil,
    or_false] at hc
  · rcases hc with rfl | rfl <;> decide
  · rcases hc with rfl | rfl | rfl | rfl | rfl | rfl <;> decide
  · rcases hc with rfl | rfl | rfl | rfl | rfl | rfl <;> decide

/-- Every character of a template key is a word character or a dot. -/
theorem key_chars (m : MatchT) (hcol : ∀ c ∈ m.col, wordChar c = true)
    (hqual : ∀ q, m.qual = some q → q ≠ [] ∧ ∀ c ∈ q, wordChar c = true) :
    ∀ c ∈ m.key, wordChar c = true ∨ c = '.' := by
  obtain ⟨sp1, kind, qual, col, sp2⟩ := m
  simp only at hcol hqual
  intro c hc
  simp only [MatchT.key] at hc
  rcases List.mem_append.mp hc with hc | hc
  · rcases List.mem_append.mp hc with hc | hc
    · exact Or.inl (kindChars_word kind c hc)
    · rcases List.mem_cons.mp hc with rfl | hc
      · exact Or.inl (by decide)
      · rcases List.mem_cons.mp hc with rfl | hc
        · exact Or.inl (by decide)
        · rcases qual with _ | q
          · cases hc
          · rcases List.mem_append.mp hc with hc | hc
            · exact Or.inl ((hqual q rfl).2 c hc)
            · simp only [List.mem_singleton] at hc
              subst hc
              exact Or.inr rfl
  · exact Or.inl (hcol c hc)

theorem braceFree_of_wordDot (l : List Char)
    (h : ∀ c ∈ l, wordChar c = true ∨ c = '.') : BraceFree l := by
  intro c hc
  rcases h c hc with hw | rfl
  · exact wordChar_not_brace c hw
  · exact ⟨by decide, by decide⟩

theorem spaceFree_of_wordDot (l : List Char)
    (h : ∀ c ∈ l, wordChar c = true ∨ c = '.') : SpaceFree l := by
  intro c hc
  rcases h c hc with hw | rfl
  · exact wordChar_not_space c hw
  · decide

/-- Every character of every `'__'`-split part comes from the input. -/
theorem splitDunder_chars : ∀ (l : List Char), ∀ w ∈ splitDunder l, ∀ c ∈ w, c ∈ l := by
  intro l
  induction l using splitDunder.induct with
  | case1 =>
    intro w hw c hc
    simp only [splitDunder, List.mem_singleton] at hw
    subst hw
    cases hc
  | case2 rest ih =>
    intro w hw c hc
    simp only [splitDunder, List.mem_cons] at hw
    rcases hw with rfl | hw
    · cases hc
    · have := ih w hw c hc
      simp [this]
  | case3 c0 rest h1 h2 ih =>
    intro w hw c hc
    rw [splitDunder.eq_def] at hw
    split at hw
    · rename_i heq
      exact absurd heq (List.cons_ne_nil c0 rest)
    · rename_i rest1 heq
      injection heq with he1 he2
      exact absurd trivial (by rw [he1, he2] at h1; exact fun _ => h1 rest1 rfl rfl)
    · rename_i c1 rest1 heq
      injection heq with he1 he2
      subst he1 he2
      rw [h2] at hw
      simp only [List.mem_singleton] at hw
      subst hw
      simp only [List.mem_singleton] at hc
      simp [hc]
  | case4 c0 rest h1 w0 ws0 heq0 ih =>
    intro w hw c hc
    rw [splitDunder.eq_def] at hw
    split at hw
    · rename_i heq
      exact absurd heq (List.cons_ne_nil c0 rest)
    · rename_i rest1 heq
      injection heq with he1 he2
      exact absurd trivial (by rw [he1, he2] at h1; exact fun _ => h1 rest1 rfl rfl)
    · rename_i c1 rest1 heq
      injection heq with he1 he2
      subst he1 he2
      rw [heq0] at hw
      rcases List.mem_cons.mp hw with rfl | hw
      · rcases List.mem_cons.mp hc with rfl | hc
        · exact List.mem_cons_self c rest
        · exact List.mem_cons_of_mem c0
            (ih w0 (by rw [heq0]; exact List.mem_cons_self w0 ws0) c hc)
      · exact List.mem_cons_of_mem c0
          (ih w (by rw [heq0]; exact List.mem_cons_of_mem w0 hw) c hc)

theorem braceFree_nil : BraceFree [] := fun _ hc => by cases hc

theorem braceFree_cons (c : Char) (t : List Char) (hc : c ≠ '{' ∧ c ≠ '}')
    (ht : BraceFree t) : BraceFree (c :: t) := by
  intro d hd
  rcases List.mem_cons.mp hd with rfl | hd
  · exact hc
  · exact ht d hd

theorem braceFree_append (a b : List Char) (ha : BraceFree a)
    (hb : BraceFree b) : BraceFree (a ++ b) := by
  intro c hc
  rcases List.mem_append.mp hc with hc | hc
  · exact ha c hc
  · exact hb c hc

theorem digitChar_not_brace (d : Nat) : digitChar d ≠ '{' ∧ digitChar d ≠ '}' := by
  match d with
  | 0 => decide
  | 1 => decide
  | 2 => decide
  | 3 => decide
  | 4 => decide
  | 5 => decide
  | 6 => decide
  | 7 => decide
  | 8 => decide
  | _ + 9 =>
    show '9' ≠ '{' ∧ '9' ≠ '}'
    decide

theorem braceFree_natCharsF : ∀ (f n : Nat), BraceFree (natCharsF f n)
  | 0, _ => braceFree_nil
  | f + 1, n => by
    intro c hc
    simp only [natCharsF] at hc
    split at hc
    · simp only [List.mem_singleton] at hc
      subst hc
      exact digitChar_not_brace n
    · rcases List.mem_append.mp hc with hc | hc
      · exact braceFree_natCharsF f (n / 10) c hc
      · simp only [List.mem_singleton] at hc
        subst hc
        exact digitChar_not_brace (n % 10)

theorem braceFree_natChars (n : Nat) : BraceFree (natChars n) :=
  braceFree_natCharsF (n + 1) n

theorem braceFree_collapseDots (l : List Char) (hl : BraceFree l) :
    BraceFree (collapseDots l) := by
  intro c hc
  simp only [collapseDots, List.mem_map] at hc
  obtain ⟨a, ha, rfl⟩ := hc
  split
  · exact ⟨by decide, by decide⟩
  · exact hl a ha

theorem braceFree_joinCommaColon : ∀ (ws : List (List Char)),
    (∀ w ∈ ws, BraceFree w) → BraceFree (joinCommaColon ws)
  | [], _ => braceFree_nil
  | [w], h => by simpa [joinCommaColon] using h w (by simp)
  | w :: w2 :: ws, h => by
    intro c hc
    simp only [joinCommaColon] at hc
    rcases List.mem_append.mp hc with hc | hc
    · exact h w (by simp) c hc
    · rcases List.mem_cons.mp hc with rfl | hc
      · exact ⟨by decide, by decide⟩
      · rcases List.mem_cons.mp hc with rfl | hc
        · exact ⟨by decide, by decide⟩
        · rcases List.mem_cons.mp hc with rfl | hc
          · exact ⟨by decide, by decide⟩
          · exact braceFree_joinCommaColon (w2 :: ws)
              (fun u hu => h u (List.mem_cons_of_mem w hu)) c hc

theorem braceFree_joinCommaSpace : ∀ (ws : List (List Char)),
    (∀ w ∈ ws, BraceFree w) → BraceFree (joinCommaSpace ws)
  | [], _ => braceFree_nil
  | [w], h => by simpa [joinCommaSpace] using h w (by simp)
  | w :: w2 :: ws, h => by
    intro c hc
    simp only [joinCommaSpace] at hc
    rcases List.mem_append.mp hc with hc | hc
    · exact h w (by simp) c hc
    · rcases List.mem_cons.mp hc with rfl | hc
      · exact ⟨by decide, by decide⟩
      · rcases List.mem_cons.mp hc with rfl | hc
        · exact ⟨by decide, by decide⟩
        · exact braceFree_joinCommaSpace (w2 :: ws)
            (fun u hu => h u (List.mem_cons_of_mem w hu)) c hc

theorem braceFree_inner (key : List Char) (v : Value) (hk : BraceFree key) :
    BraceFree (TemplateGenerators.parameterize_inner_list key v).1 := by
  have hgo : ∀ l : List Value,
      ∀ w ∈ (TemplateGenerators.parameterize_inner_list.go key l).1,
        BraceFree w := by
    intro l w hw
    simp only [TemplateGenerators.parameterize_inner_list.go, List.map_map,
      List.mem_map] at hw
    obtain ⟨iv, _, rfl⟩ := hw
    exact braceFree_append _ _ (braceFree_collapseDots key hk)
      (braceFree_cons '_' _ (by decide) (braceFree_natChars iv.1))
  have hpks : ∀ w ∈ (match v with
      | Value.vlist l => TemplateGenerators.parameterize_inner_list.go key l
      | Value.vtuple l => TemplateGenerators.parameterize_inner_list.go key l
      | v => ([key], [(key, v)]) : List (List Char) × PLog).1, BraceFree w := by
    cases v with
    | vlist l => exact hgo l
    | vtuple l => exact hgo l
    | vnone => intro w hw; simp only [List.mem_singleton] at hw; subst hw; exact hk
    | vint n => intro w hw; simp only [List.mem_singleton] at hw; subst hw; exact hk
    | vbool b => intro w hw; simp only [List.mem_singleton] at hw; subst hw; exact hk
    | vstr s => intro w hw; simp only [List.mem_singleton] at hw; subst hw; exact hk
    | vset l => intro w hw; simp only [List.mem_singleton] at hw; subst hw; exact hk
    | vdict l => intro w hw; simp only [List.mem_singleton] at hw; subst hw; exact hk
  intro c hc
  simp only [TemplateGenerators.parameterize_inner_list] at hc
  rcases List.mem_cons.mp hc with rfl | hc
  · exact ⟨by decide, by decide⟩
  · rcases List.mem_cons.mp hc with rfl | hc
    · exact ⟨by decide, by decide⟩
    · rcases List.mem_cons.mp hc with rfl | hc
      · exact ⟨by decide, by decide⟩
      · rcases List.mem_append.mp hc with hc | hc
        · exact braceFree_joinCommaColon _ hpks c hc
        · rcases List.mem_cons.mp hc with rfl | hc
          · exact ⟨by decide, by decide⟩
          · simp only [List.mem_singleton] at hc
            subst hc
            exact ⟨by decide, by decide⟩

theorem braceFree_plist_go (key : List Char) (hk : BraceFree key) (whole : Value) :
    ∀ (l : List Value) (i : Nat) (log : PLog) (pks : List (List Char))
      (fr : List Char) (log' : PLog),
    (∀ w ∈ pks, BraceFree w) →
    TemplateGenerators.parameterize_list.go key whole l i log pks = .ok (fr, log') →
    BraceFree fr
  | [], i, log, pks, fr, log', hpks, h => by
    simp only [TemplateGenerators.parameterize_list.go, Except.ok.injEq,
      Prod.mk.injEq] at h
    rw [← h.1]
    exact braceFree_joinCommaSpace pks hpks
  | x :: rest, i, log, pks, fr, log', hpks, h => by
    simp only [TemplateGenerators.parameterize_list.go] at h
    split at h
    · refine braceFree_plist_go key hk whole rest (i + 1) _ _ fr log' ?_ h
      intro w hw
      rcases List.mem_append.mp hw with hw | hw
      · exact hpks w hw
      · simp only [List.mem_singleton] at hw
        subst hw
        exact braceFree_inner (key ++ '_' :: natChars i) x
          (braceFree_append _ _ hk
            (braceFree_cons '_' _ (by decide) (braceFree_natChars i)))
    · simp only [Except.ok.injEq] at h
      rw [show fr = (TemplateGenerators.parameterize_inner_list key whole).1 from
        by rw [h]]
      exact braceFree_inner key whole hk

theorem braceFree_plist (key : List Char) (v : Value) (fr : List Char)
    (log : PLog) (hk : BraceFree key)
    (h : TemplateGenerators.parameterize_list key v = .ok (fr, log)) :
    BraceFree fr := by
  cases v with
  | vlist l =>
    replace h : TemplateGenerators.parameterize_list.go key (Value.vlist l)
        l 0 [] [] = .ok (fr, log) := h
    exact braceFree_plist_go key hk (Value.vlist l) l 0 [] [] fr log
      (fun w hw => by cases hw) h
  | vtuple l =>
    replace h : TemplateGenerators.parameterize_list.go key (Value.vtuple l)
        l 0 [] [] = .ok (fr, log) := h
    exact braceFree_plist_go key hk (Value.vtuple l) l 0 [] [] fr log
      (fun w hw => by cases hw) h
  | vstr s =>
    replace h : TemplateGenerators.parameterize_list.go key
        (Value.vtuple [Value.vstr s]) [Value.vstr s] 0 [] [] = .ok (fr, log) := h
    exact braceFree_plist_go key hk (Value.vtuple [Value.vstr s])
      [Value.vstr s] 0 [] [] fr log (fun w hw => by cases hw) h
  | vnone => cases h
  | vint n => cases h
  | vbool b => cases h
  | vset l => cases h
  | vdict l => cases h

theorem braceFree_get_key (name k : List Char) (hn : BraceFree name)
    (hk : BraceFree k) :
    BraceFree (TemplateGenerators.get_key name (some k) false) := by
  by_cases hke : k = []
  · subst hke
    rw [show TemplateGenerators.get_key name (some []) false = name from by
      simp [TemplateGenerators.get_key]]
    exact hn
  · rw [get_key_legacy name k hke]
    exact hk

/-- Every fragment a successful template run produces is brace-free. -/
theorem braceFree_runTemplate (kind name k : List Char) (v : Value)
    (fr : List Char) (pd : Option PLog) (hn : BraceFree name) (hk : BraceFree k)
    (h : TemplateGenerators.runTemplate kind name v (some k) = .ok (fr, pd)) :
    BraceFree fr := by
  unfold TemplateGenerators.runTemplate at h
  split_ifs at h
  · unfold TemplateGenerators.in_column at h
    split at h
    · cases h
      unfold BraceFree
      decide
    · split at h
      · cases h
      case _ keys log heq =>
        cases h
        refine braceFree_append _ _ hn (braceFree_cons ' ' _ (by decide)
          (braceFree_cons 'I' _ (by decide) (braceFree_cons 'N' _ (by decide)
            (braceFree_cons ' ' _ (by decide) ?_))))
        exact braceFree_plist _ v keys log (braceFree_get_key name k hn hk) heq
  · unfold TemplateGenerators.not_in_column at h
    split at h
    · cases h
      unfold BraceFree
      decide
    · split at h
      · cases h
      case _ keys log heq =>
        cases h
        refine braceFree_append _ _ hn (braceFree_cons ' ' _ (by decide)
          (braceFree_cons 'N' _ (by decide) (braceFree_cons 'O' _ (by decide)
            (braceFree_cons 'T' _ (by decide) (braceFree_cons ' ' _ (by decide)
              (braceFree_cons 'I' _ (by decide) (braceFree_cons 'N' _ (by decide)
                (braceFree_cons ' ' _ (by decide) ?_))))))))
        exact braceFree_plist _ v keys log (braceFree_get_key name k hn hk) heq
  · unfold TemplateGenerators.values at h
    split at h
    · cases h
    · split at h
      · cases h
      case _ keys log heq =>
        cases h
        refine braceFree_append _ _ (by unfold BraceFree; decide) ?_
        exact braceFree_plist _ v keys log (braceFree_get_key name k hn hk) heq

/-! ## Stripping padded matches and scanner completeness (C4) -/

theorem dropWhile_all_append (p : Char → Bool) :
    ∀ (a l : List Char), (∀ c ∈ a, p c = true) →
      (a ++ l).dropWhile p = l.dropWhile p
  | [], _, _ => rfl
  | c :: a, l, h => by
    rw [List.cons_append, List.dropWhile_cons_of_pos (h c (by simp))]
    exact dropWhile_all_append p a l (fun d hd => h d (List.mem_cons_of_mem c hd))

theorem takeWhile_stop (p : Char → Bool) :
    ∀ (u : List Char), (∀ c ∈ u, p c = true) → ∀ (v0 : Char) (vs : List Char),
      p v0 = false → (u ++ v0 :: vs).takeWhile p = u
  | [], _, v0, vs, hv => by
    rw [List.nil_append, List.takeWhile_cons_of_neg (by simp [hv])]
  | c :: u, h, v0, vs, hv => by
    rw [List.cons_append, List.takeWhile_cons_of_pos (h c (by simp))]
    rw [takeWhile_stop p u (fun d hd => h d (List.mem_cons_of_mem c hd)) v0 vs hv]

theorem dropWhile_stop (p : Char → Bool) :
    ∀ (u : List Char), (∀ c ∈ u, p c = true) → ∀ (v0 : Char) (vs : List Char),
      p v0 = false → (u ++ v0 :: vs).dropWhile p = v0 :: vs
  | [], _, v0, vs, hv => by
    rw [List.nil_append, List.dropWhile_cons_of_neg (by simp [hv])]
  | c :: u, h, v0, vs, hv => by
    rw [List.cons_append, List.dropWhile_cons_of_pos (h c (by simp))]
    exact dropWhile_stop p u (fun d hd => h d (List.mem_cons_of_mem c hd)) v0 vs hv

/-- `str.strip` on a space-padded token returns exactly the token. -/
theorem pyStrip_pad (a mid b : List Char) (ha : ∀ c ∈ a, c = ' ')
    (hb : ∀ c ∈ b, c = ' ') :
    pyStrip (a ++ ('{' :: mid ++ ['}']) ++ b) = '{' :: mid ++ ['}'] := by
  have hwa : ∀ c ∈ a, pyWs c = true := fun c hc => by rw [ha c hc]; rfl
  have hwb : ∀ c ∈ b.reverse, pyWs c = true := fun c hc => by
    rw [hb c (List.mem_reverse.mp hc)]; rfl
  unfold pyStrip
  rw [List.append_assoc, dropWhile_all_append pyWs a _ hwa]
  rw [show ('{' :: mid ++ ['}']) ++ b = '{' :: ((mid ++ ['}']) ++ b) from by simp]
  rw [List.dropWhile_cons_of_neg (by decide)]
  rw [show ('{' :: ((mid ++ ['}']) ++ b)).reverse =
      b.reverse ++ ('}' :: (mid.reverse ++ ['{'])) from by simp]
  rw [dropWhile_all_append pyWs b.reverse _ hwb]
  rw [List.dropWhile_cons_of_neg (by decide)]
  simp

theorem kindAt_complete (k : TKind) (z : List Char) :
    kindAt (k.chars ++ '_' :: '_' :: z) = some (k, z) := by
  cases k <;> rfl

/-- The regex matcher cannot fail on an input that starts with a
well-formed template token. -/
theorem matchAt_tok_not_none (kind : TKind) (qual : Option (List Char))
    (col : List Char) (b : List Char) (hcol : col ≠ [])
    (hcolw : ∀ c ∈ col, wordChar c = true)
    (hq : ∀ q, qual = some q → q ≠ [] ∧ ∀ c ∈ q, wordChar c = true) :
    matchAt (tokenOfKey (keyOfParts kind qual col) ++ b) ≠ none := by
  intro hma
  rcases qual with _ | q
  · have hdw : (tokenOfKey (keyOfParts kind none col) ++ b).dropWhile (· = ' ') =
        '{' :: (kind.chars ++ '_' :: '_' :: (col ++ '}' :: b)) := by
      rw [show tokenOfKey (keyOfParts kind none col) ++ b =
          '{' :: (kind.chars ++ '_' :: '_' :: (col ++ '}' :: b)) from by
        simp [tokenOfKey, keyOfParts, MatchT.key]]
      exact List.dropWhile_cons_of_neg (by decide)
    unfold matchAt at hma
    rw [hdw] at hma
    split at hma
    · rename_i r2 heq
      injection heq with _ h2
      rw [← h2] at hma
      rw [kindAt_complete kind (col ++ '}' :: b)] at hma
      split at hma
      · rename_i k r3 heq2
        injection heq2 with h3
        injection h3 with h4 h5
        rw [← h5] at hma
        rw [takeWhile_stop wordChar col hcolw '}' b (by decide)] at hma
        rw [if_neg hcol] at hma
        rw [dropWhile_stop wordChar col hcolw '}' b (by decide)] at hma
        split at hma
        · rename_i r4 hx
          injection hx with hx1 _
          exact absurd hx1 (by decide)
        · cases hma
        · rename_i hx1 hx2
          exact hx2 b rfl
      · rename_i heq2
        cases heq2
    · rename_i hx
      exact hx _ rfl
  · have hqw := (hq q rfl).2
    have hqne := (hq q rfl).1
    have hdw : (tokenOfKey (keyOfParts kind (some q) col) ++ b).dropWhile (· = ' ') =
        '{' :: (kind.chars ++ '_' :: '_' :: (q ++ '.' :: (col ++ '}' :: b))) := by
      rw [show tokenOfKey (keyOfParts kind (some q) col) ++ b =
          '{' :: (kind.chars ++ '_' :: '_' :: (q ++ '.' :: (col ++ '}' :: b))) from by
        simp [tokenOfKey, keyOfParts, MatchT.key]]
      exact List.dropWhile_cons_of_neg (by decide)
    unfold matchAt at hma
    rw [hdw] at hma
    split at hma
    · rename_i r2 heq
      injection heq with _ h2
      rw [← h2] at hma
      rw [kindAt_complete kind (q ++ '.' :: (col ++ '}' :: b))] at hma
      split at hma
      · rename_i k r3 heq2
        injection heq2 with h3
        injection h3 with h4 h5
        rw [← h5] at hma
        rw [takeWhile_stop wordChar q hqw '.' _ (by decide)] at hma
        rw [if_neg hqne] at hma
        rw [dropWhile_stop wordChar q hqw '.' _ (by decide)] at hma
        split at hma
        · rename_i r4 hx
          injection hx with _ hx2
          rw [← hx2] at hma
          rw [takeWhile_stop wordChar col hcolw '}' b (by decide)] at hma
          rw [if_neg hcol] at hma
          rw [dropWhile_stop wordChar col hcolw '}' b (by decide)] at hma
          split at hma
          · cases hma
          · rename_i hy
            exact hy b rfl
        · rename_i r4 hx
          injection hx with hx1 _
          exact absurd hx1 (by decide)
        · rename_i hx1 hx2
          exact hx1 (col ++ '}' :: b) rfl
      · rename_i heq2
        cases heq2
    · rename_i hx
      exact hx _ rfl

theorem wfTok_qual (qual : Option (List Char)) (col : List Char)
    (hwf : WfTok qual col) :
    ∀ q, qual = some q → q ≠ [] ∧ ∀ c ∈ q, wordChar c = true := by
  intro q hq
  subst hq
  exact hwf.2.2

theorem braceFree_keyOfParts (kind : TKind) (qual : Option (List Char))
    (col : List Char) (hwf : WfTok qual col) :
    BraceFree (keyOfParts kind qual col) :=
  braceFree_of_wordDot _
    (key_chars (MatchT.mk [] kind qual col []) hwf.2.1 (wfTok_qual qual col hwf))

/-- Two well-shaped tokens starting at the same position coincide. -/
theorem tok_append_align (t1 t2 b1 b2 : List Char) (h1 : TokShaped t1)
    (h2 : TokShaped t2) (he : t1 ++ b1 = t2 ++ b2) : t1 = t2 := by
  obtain ⟨m1, rfl, hb1⟩ := h1
  obtain ⟨m2, rfl, hb2⟩ := h2
  simp only [List.cons_append] at he
  injection he with _ he
  rw [List.append_assoc, List.append_assoc, List.singleton_append,
    List.singleton_append] at he
  obtain ⟨h, _⟩ := char_split m1 m2 b1 b2 '}'
    (fun hc => ((hb1 '}' hc).2) rfl) (fun hc => ((hb2 '}' hc).2) rfl) he
  rw [h]

/-- Scanner completeness: every occurrence of a well-formed template token
is reported by `re.findall` (with the token text as the match's token). -/
theorem scan_complete (kind : TKind) (qual : Option (List Char))
    (col : List Char) (hwf : WfTok qual col) :
    ∀ (f : Nat) (cs a b : List Char), cs.length < f →
      cs = a ++ tokenOfKey (keyOfParts kind qual col) ++ b →
      ∃ m ∈ scanF f cs, m.tok = tokenOfKey (keyOfParts kind qual col)
  | 0, cs, a, b, hf, _ => absurd hf (by omega)
  | f + 1, cs, a, b, hf, he => by
    have hKbf : BraceFree (keyOfParts kind qual col) :=
      braceFree_keyOfParts kind qual col hwf
    have hTshape : TokShaped (tokenOfKey (keyOfParts kind qual col)) :=
      ⟨keyOfParts kind qual col, rfl, hKbf⟩
    rcases hma : matchAt cs with _ | ⟨m, rest⟩
    · rcases a with _ | ⟨a0, a'⟩
      · rw [List.nil_append] at he
        subst he
        exact absurd hma (matchAt_tok_not_none kind qual col b hwf.1 hwf.2.1
          (wfTok_qual qual col hwf))
      · subst he
        have hshape : (a0 :: a') ++ tokenOfKey (keyOfParts kind qual col) ++ b =
            a0 :: (a' ++ tokenOfKey (keyOfParts kind qual col) ++ b) := by
          simp
        rw [hshape] at hma hf ⊢
        have hsc : scanF (f + 1)
            (a0 :: (a' ++ tokenOfKey (keyOfParts kind qual col) ++ b)) =
            scanF f (a' ++ tokenOfKey (keyOfParts kind qual col) ++ b) := by
          rw [scanF_succ, hma]
        rw [hsc]
        refine scan_complete kind qual col hwf f _ a' b ?_ rfl
        simp only [List.length_cons] at hf
        omega
    · obtain ⟨hcs, hsp1, hsp2, hcolm, hcolwm, hqualm⟩ := matchAt_parts cs m rest hma
      have hKMbf : BraceFree m.key :=
        braceFree_of_wordDot _ (key_chars m hcolwm hqualm)
      have hMshape : TokShaped m.tok := ⟨m.key, rfl, hKMbf⟩
      have hsc : scanF (f + 1) cs = m :: scanF f rest := by
        rw [scanF_succ, hma]
      have hrl : rest.length < f := by
        have hlen := congrArg List.length hcs
        simp only [MatchT.g0, MatchT.tok, List.length_append, List.length_cons]
          at hlen
        omega
      have hee := he.symm.trans hcs
      simp only [MatchT.g0, List.append_assoc] at hee
      rcases List.append_eq_append_iff.mp hee with ⟨u, hu1, hu2⟩ | ⟨u, hu1, hu2⟩
      · rcases u with _ | ⟨u0, u'⟩
        · rw [List.nil_append] at hu2
          refine ⟨m, by rw [hsc]; exact List.mem_cons_self m _, ?_⟩
          exact (tok_append_align _ m.tok b (m.sp2 ++ rest) hTshape hMshape
            hu2).symm
        · exfalso
          simp only [tokenOfKey, List.cons_append] at hu2
          injection hu2 with h1 _
          have hu0 : u0 ∈ m.sp1 := by
            rw [hu1]
            exact List.mem_append_right a (List.mem_cons_self u0 u')
          have := hsp1 u0 hu0
          rw [← h1] at this
          exact absurd this (by decide)
      · rcases List.append_eq_append_iff.mp hu2 with ⟨w, hw1, hw2⟩ | ⟨w, hw1, hw2⟩
        · rcases List.append_eq_append_iff.mp hw2 with ⟨v, hv1, hv2⟩ | ⟨v, hv1, hv2⟩
          · rw [← List.append_assoc] at hv2
            obtain ⟨m', hm', htok⟩ :=
              scan_complete kind qual col hwf f rest v b hrl hv2
            exact ⟨m', by rw [hsc]; exact List.mem_cons_of_mem m hm', htok⟩
          · rcases v with _ | ⟨v0, v'⟩
            · rw [List.append_nil] at hv1
              rw [List.nil_append] at hv2
              obtain ⟨m', hm', htok⟩ :=
                scan_complete kind qual col hwf f rest [] b hrl
                  (by rw [List.nil_append]; exact hv2.symm)
              exact ⟨m', by rw [hsc]; exact List.mem_cons_of_mem m hm', htok⟩
            · exfalso
              simp only [tokenOfKey, List.cons_append] at hv2
              injection hv2 with h1 _
              have hv0 : v0 ∈ m.sp2 := by
                rw [hv1]
                exact List.mem_append_right w (List.mem_cons_self v0 v')
              have := hsp2 v0 hv0
              rw [← h1] at this
              exact absurd this (by decide)
        · rcases u with _ | ⟨u0, u'⟩
          · rw [List.nil_append] at hw1
            rw [← hw1] at hw2
            refine ⟨m, by rw [hsc]; exact List.mem_cons_self m _, ?_⟩
            exact (tok_append_align _ m.tok b (m.sp2 ++ rest) hTshape hMshape
              hw2).symm
          · rcases w with _ | ⟨w0, w'⟩
            · rcases hsp2c : m.sp2 with _ | ⟨s0, s'⟩
              · rw [hsp2c, List.nil_append] at hw2
                obtain ⟨m', hm', htok⟩ :=
                  scan_complete kind qual col hwf f rest [] b hrl
                    (by rw [List.nil_append]; exact hw2.symm)
                exact ⟨m', by rw [hsc]; exact List.mem_cons_of_mem m hm', htok⟩
              · exfalso
                rw [hsp2c] at hw2
                simp only [tokenOfKey, List.cons_append] at hw2
                injection hw2 with h1 _
                have hs0 : s0 ∈ m.sp2 := by
                  rw [hsp2c]
                  exact List.mem_cons_self s0 s'
                have := hsp2 s0 hs0
                rw [← h1] at this
                exact absurd this (by decide)
            · exfalso
              have hMtok : m.tok = '{' :: (m.key ++ ['}']) := rfl
              rw [hMtok, List.cons_append] at hw1
              injection hw1 with _ h2
              simp only [tokenOfKey, List.cons_append] at hw2
              injection hw2 with h1 _
              have hw0 : w0 ∈ m.key ++ ['}'] := by
                rw [h2]
                exact List.mem_append_right u' (List.mem_cons_self w0 w')
              rw [← h1] at hw0
              rcases List.mem_append.mp hw0 with hc | hc
              · exact ((hKMbf '{' hc).1) rfl
              · simp only [List.mem_singleton] at hc
                cases hc

/-- The space groups of every reported match contain only spaces. -/
theorem scanF_sp : ∀ (f : Nat) (cs : List Char) (m : MatchT), m ∈ scanF f cs →
    (∀ c ∈ m.sp1, c = ' ') ∧ (∀ c ∈ m.sp2, c = ' ')
  | 0, _, _, h => by cases h
  | f + 1, cs, m, h => by
    rw [scanF_succ f cs] at h
    split at h
    case _ m' rest hma =>
      rcases List.mem_cons.mp h with rfl | h
      · obtain ⟨_, h2, h3, _⟩ := matchAt_parts cs m rest hma
        exact ⟨h2, h3⟩
      · exact scanF_sp f rest m h
    case _ =>
      split at h
      · cases h
      · exact scanF_sp f _ m h

/-- Cleaning transfer: a token-shaped substring of the cleaned query was
in the query before cleaning or is one of the scanned tokens. -/
theorem validate_sub (tp : Option PDict) (tok : List Char) (ht : TokShaped tok) :
    ∀ (ms : List MatchT) (q : List Char) (acc : List (List Char))
      (q1 : List Char) (validated : List (List Char)),
    (∀ m ∈ ms, (∀ c ∈ m.sp1, c = ' ') ∧ (∀ c ∈ m.sp2, c = ' ') ∧
      BraceFree m.key) →
    validateKeysCleanQuery.go tp ms q acc = .ok (q1, validated) →
    Sub tok q1 → Sub tok q ∨ ∃ m ∈ ms, tok = m.tok
  | [], q, acc, q1, validated, _, h, hsub => by
    simp only [validateKeysCleanQuery.go, Except.ok.injEq, Prod.mk.injEq] at h
    exact Or.inl (by rw [h.1]; exact hsub)
  | mtc :: ms, q, acc, q1, validated, hms, h, hsub => by
    simp only [validateKeysCleanQuery.go] at h
    split at h
    · cases h
    · split at h
      · cases h
      · obtain ⟨hs1, hs2, hbf⟩ := hms mtc (List.mem_cons_self mtc ms)
        have hstrip : pyStrip mtc.g0 = mtc.tok := by
          have hg0 : mtc.g0 = mtc.sp1 ++ ('{' :: mtc.key ++ ['}']) ++ mtc.sp2 := rfl
          rw [hg0, pyStrip_pad mtc.sp1 mtc.key mtc.sp2 hs1 hs2]
          rfl
        have hMs : TokShaped mtc.tok := ⟨mtc.key, rfl, hbf⟩
        rcases validate_sub tp tok ht ms _ _ q1 validated
            (fun m' hm' => hms m' (List.mem_cons_of_mem mtc hm')) h hsub with
          hq | ⟨m', hm', htok⟩
        · rw [hstrip] at hq
          rcases (sub_replace_tok tok mtc.tok ht hMs (q.length + 1) q mtc.g0).2
              hq with h2 | h2
          · exact Or.inl h2
          · exact Or.inr ⟨mtc, List.mem_cons_self mtc ms, h2⟩
        · exact Or.inr ⟨m', List.mem_cons_of_mem mtc hm', htok⟩

/-- Expansion transfer: a space-free brace-bearing substring of the
expanded query was already there before the loop, and the expansion of
each processed key removed the key's own `'{key}'` pattern for good. -/
theorem expand_no_token (tp : Option PDict) (tok : List Char)
    (hsp : SpaceFree tok) (hbr : '{' ∈ tok) :
    ∀ (keys : List (List Char)) (q : List Char) (log : PLog)
      (q' : List Char) (log' : PLog),
    (∀ k ∈ keys, BraceFree k ∧ SpaceFree k) →
    expandLoop tp keys q log = .ok (q', log') → Sub tok q' →
    Sub tok q ∧ ∀ k ∈ keys, tok ≠ '{' :: k ++ ['}']
  | [], q, log, q', log', _, h, hsub => by
    simp only [expandLoop, Except.ok.injEq, Prod.mk.injEq] at h
    exact ⟨by rw [h.1]; exact hsub, fun k hk => by cases hk⟩
  | key :: keys, q, log, q', log', hkeys, h, hsub => by
    simp only [expandLoop] at h
    split at h
    case _ kind column hsplit =>
      split at h
      · cases h
      case _ v hv =>
        split at h
        · cases h
        case _ frag pd hrt =>
          obtain ⟨hkbf, hksf⟩ := hkeys key (List.mem_cons_self key keys)
          have hcolbf : BraceFree column := by
            intro c hc
            exact hkbf c (splitDunder_chars key column
              (by rw [hsplit]; simp) c hc)
          have hfragbf : BraceFree frag :=
            braceFree_runTemplate kind column key v frag pd hcolbf hkbf hrt
          obtain ⟨hsub2, hne⟩ := expand_no_token tp tok hsp hbr keys _ _ q' log'
            (fun k hk => hkeys k (List.mem_cons_of_mem key hk)) h hsub
          have htokne : tok ≠ [] := List.ne_nil_of_mem hbr
          rcases sub_replace_space ('{' :: key ++ ['}']) frag (q.length + 1) q
              tok hsp htokne hsub2 with hq | hfrag
          · refine ⟨hq, ?_⟩
            intro k hk
            rcases List.mem_cons.mp hk with rfl | hk
            · intro htok
              have hpat_sf : SpaceFree ('{' :: k ++ ['}']) := by
                intro c hc
                rcases List.mem_cons.mp hc with rfl | hc
                · decide
                · rcases List.mem_append.mp hc with hc | hc
                  · exact hksf c hc
                  · simp only [List.mem_singleton] at hc
                    subst hc
                    decide
              have hnofrag : ¬ Sub ('{' :: k ++ ['}']) frag := by
                intro hcf
                exact ((hfragbf '{' (mem_of_sub '{' _ frag (by simp) hcf)).1) rfl
              have hrem := (replace_removes ('{' :: k ++ ['}']) frag (by simp)
                hpat_sf hnofrag (q.length + 1) q (by omega)).2
              rw [htok] at hsub2
              exact hrem hsub2
            · exact hne k hk
          · exact absurd rfl
              ((hfragbf '{' (mem_of_sub '{' tok frag hbr hfrag)).1)
    case _ => cases h

/-- Core of C4: a successful validate-and-expand run leaves no
well-formed token substring in the expanded text. -/
theorem expanded_no_token (d : QueryData) (q1 : List Char)
    (validated : List (List Char)) (q2 : List Char) (log0 log : PLog)
    (kind : TKind) (qual : Option (List Char)) (col : List Char)
    (hwf : WfTok qual col)
    (hval : validateKeysCleanQuery d.query d.template_params = .ok (q1, validated))
    (hexp : expandLoop d.template_params validated q1 log0 = .ok (q2, log))
    (hsub : Sub (tokenOfKey (keyOfParts kind qual col)) q2) : False := by
  have hKbf : BraceFree (keyOfParts kind qual col) :=
    braceFree_keyOfParts kind qual col hwf
  have hKsf : SpaceFree (keyOfParts kind qual col) :=
    spaceFree_of_wordDot _ (key_chars (MatchT.mk [] kind qual col [])
      hwf.2.1 (wfTok_qual qual col hwf))
  have hTsp : SpaceFree (tokenOfKey (keyOfParts kind qual col)) := by
    intro c hc
    rcases List.mem_cons.mp hc with rfl | hc
    · decide
    · rcases List.mem_append.mp hc with hc | hc
      · exact hKsf c hc
      · simp only [List.mem_singleton] at hc
        subst hc
        decide
  have hTbr : '{' ∈ tokenOfKey (keyOfParts kind qual col) :=
    List.mem_cons_self '{' _
  have hval' : validateKeysCleanQuery.go d.template_params
      (scan d.query) d.query [] = .ok (q1, validated) := hval
  have hvk := validate_go_keys d.template_params (scan d.query) d.query []
    q1 validated hval'
  have hkeysfacts : ∀ k ∈ validated, BraceFree k ∧ SpaceFree k := by
    intro k hk
    rw [hvk] at hk
    simp only [List.nil_append, List.mem_map] at hk
    obtain ⟨m, hm, rfl⟩ := hk
    obtain ⟨_, hcolw, hqualw⟩ := scanF_sound _ _ m hm
    exact ⟨braceFree_of_wordDot _ (key_chars m hcolw hqualw),
      spaceFree_of_wordDot _ (key_chars m hcolw hqualw)⟩
  obtain ⟨hsubq1, hne⟩ := expand_no_token d.template_params
    (tokenOfKey (keyOfParts kind qual col)) hTsp hTbr validated q1 log0 q2 log
    hkeysfacts hexp hsub
  have hmsfacts : ∀ m ∈ scan d.query,
      (∀ c ∈ m.sp1, c = ' ') ∧ (∀ c ∈ m.sp2, c = ' ') ∧ BraceFree m.key := by
    intro m hm
    obtain ⟨h1, h2⟩ := scanF_sp _ _ m hm
    obtain ⟨_, hcolw, hqualw⟩ := scanF_sound _ _ m hm
    exact ⟨h1, h2, braceFree_of_wordDot _ (key_chars m hcolw hqualw)⟩
  have hne' : ∀ m ∈ scan d.query,
      tokenOfKey (keyOfParts kind qual col) ≠ m.tok := by
    intro m hm htok
    refine hne m.key ?_ htok
    rw [hvk]
    simp only [List.nil_append, List.mem_map]
    exact ⟨m, hm, rfl⟩
  rcases validate_sub d.template_params
      (tokenOfKey (keyOfParts kind qual col))
      ⟨keyOfParts kind qual col, rfl, hKbf⟩ (scan d.query) d.query []
      q1 validated hmsfacts hval' hsubq1 with hq0 | ⟨m, hm, htokm⟩
  · obtain ⟨a, b, hab⟩ := hq0
    obtain ⟨m, hm, htok⟩ := scan_complete kind qual col hwf
      (d.query.length + 1) d.query a b (by omega) hab.symm
    exact hne' m hm htok.symm
  · exact hne' m hm htokm

/-- Inversion step for C4: if the post-validation stage of
`get_query_data` returns `q'`, no well-formed token occurs in `q'`. -/
theorem expanded_match_no_token (d : QueryData) (q1 : List Char)
    (validated : List (List Char)) (q' : List Char) (ps : PDict) (log0 : PLog)
    (kind : TKind) (qual : Option (List Char)) (col : List Char)
    (hwf : WfTok qual col)
    (hval : validateKeysCleanQuery d.query d.template_params = .ok (q1, validated))
    (h : (match expandLoop d.template_params validated q1 log0 with
          | .error e => .error e
          | .ok (q2, log) => .ok (q2, replayDict log)) =
         Except.ok (q', ps))
    (hsub : Sub (tokenOfKey (keyOfParts kind qual col)) q') : False := by
  split at h
  · cases h
  case _ q2 log hexp =>
    simp only [Except.ok.injEq, Prod.mk.injEq] at h
    rw [← h.1] at hsub
    exact expanded_no_token d q1 validated q2 log0 log kind qual col hwf
      hval hexp hsub

/-- C4.  When every template token of the query passes validation
(`get_query_data` succeeds), the returned SQL text contains no remaining
token placeholder `{kind__[qualifier.]column}` with `kind` in
`in`/`not_in`/`values`: every token occurrence found in the input has been
replaced by its expanded fragment, the fragments are brace-free, and no
splice can recreate a token. -/
theorem c4_no_unresolved_tokens (d : QueryData) (q' : List Char) (ps : PDict)
    (h : getQueryData d = .ok (q', ps)) :
    ¬ ∃ (kind : TKind) (qual : Option (List Char)) (col : List Char),
        WfTok qual col ∧ Sub (tokenOfKey (keyOfParts kind qual col)) q' := by
  rintro ⟨kind, qual, col, hwf, hsub⟩
  unfold getQueryData at h
  split at h
  · cases h
  case _ q1 validated hval =>
    split at h
    case _ ps0 hqp =>
      split at h
      case isTrue hpe =>
        exact expanded_match_no_token d q1 validated q' ps [] kind qual col
          hwf hval h hsub
      case isFalse hpe =>
        exact expanded_match_no_token d q1 validated q' ps ps0 kind qual col
          hwf hval h hsub
    case _ hqp =>
      exact expanded_match_no_token d q1 validated q' ps [] kind qual col
        hwf hval h hsub

/-- Witness for C4 at a concrete expansion: the expanded text of the C5
example contains no remaining well-formed token. -/
theorem c4_no_unresolved_tokens_witness :
    getQueryData
        { query := "SELECT * FROM t WHERE \x7bin__col\x7d".data,
          template_params := some [("in__col".data, Value.vlist [Value.vint 1, Value.vint 2])] } =
      .ok ("SELECT * FROM t WHERE col IN ( :in__col_0, :in__col_1 ) ".data,
        [("in__col_0".data, Value.vint 1), ("in__col_1".data, Value.vint 2)]) ∧
    ¬ ∃ (kind : TKind) (qual : Option (List Char)) (col : List Char),
        WfTok qual col ∧ Sub (tokenOfKey (keyOfParts kind qual col))
          "SELECT * FROM t WHERE col IN ( :in__col_0, :in__col_1 ) ".data :=
  ⟨by rfl,
    c4_no_unresolved_tokens
      { query := "SELECT * FROM t WHERE \x7bin__col\x7d".data,
        template_params := some [("in__col".data, Value.vlist [Value.vint 1, Value.vint 2])] }
      "SELECT * FROM t WHERE col IN ( :in__col_0, :in__col_1 ) ".data
      [("in__col_0".data, Value.vint 1), ("in__col_1".data, Value.vint 2)]
      (by rfl)⟩

/-- C9.  When `DbMapResultModel.map_record` is applied to a second or
later row for the same instance (`_has_been_mapped` is true), every field
outside the aggregation machinery — not a `_list_fields` member, not a
`_set_fields` member, not a dict-key target field and not a dict-value
source field (both halves of the `dict_key` declaration) — keeps exactly
the value it got from the first row: its dict entry is unchanged, and no
re-validation runs (`__init__` count and `__fields_set__` untouched). -/
theorem c9_plain_fields_frame (sch : FieldSchema) (s s' : ModelState)
    (r : Row) (f : String)
    (hmapped : hasBeenMapped s = true)
    (hok : pydMapRecord sch s r = .ok s')
    (hl : f ∉ sch.list_fields)
    (hs : f ∉ sch.set_fields)
    (hd : f ∉ sch.dict_key_fields.map Prod.snd)
    (hv : f ∉ sch.dict_value_mappings.map Prod.snd) :
    aGet sEq s'.dict f = aGet sEq s.dict f ∧
    s'.inits = s.inits ∧ s'.fields_set = s.fields_set := by
  unfold pydMapRecord at hok
  rw [hmapped] at hok
  rcases hloop : mapFieldsLoop sch true r (r.map Prod.fst) s.dict with e | cur
  · rw [hloop] at hok
    cases hok
  · rw [hloop] at hok
    simp only [if_pos] at hok
    cases hok
    refine ⟨?_, rfl, rfl⟩
    rw [popLoop_frame f sch.dict_value_mappings cur hv]
    exact mapFieldsLoop_frame sch r f hl hs hd (r.map Prod.fst) s.dict cur hloop

/-- Witness for C9: a mapped state with a list field `l` and plain fields
`id`, `a`; the second row changes the recorded `a`, but the stored `a`
keeps its first-row value, no re-validation happens, and only `l` grows. -/
theorem c9_plain_fields_frame_witness :
    hasBeenMapped
        { dict := [("id", Value.vint 1), ("a", Value.vint 2), ("l", Value.vlist [Value.vint 3])],
          fields_set := ["id", "a", "l"], inits := 1 } = true ∧
    pydMapRecord
        { list_fields := ["l"], set_fields := [], dict_key_fields := [],
          dict_value_mappings := [] }
        { dict := [("id", Value.vint 1), ("a", Value.vint 2), ("l", Value.vlist [Value.vint 3])],
          fields_set := ["id", "a", "l"], inits := 1 }
        [("id", Value.vint 1), ("a", Value.vint 9), ("l", Value.vint 4)] =
      .ok { dict := [("id", Value.vint 1), ("a", Value.vint 2),
              ("l", Value.vlist [Value.vint 3, Value.vint 4])],
            fields_set := ["id", "a", "l"], inits := 1 } ∧
    (aGet sEq [("id", Value.vint 1), ("a", Value.vint 2),
        ("l", Value.vlist [Value.vint 3, Value.vint 4])] "a" =
      aGet sEq [("id", Value.vint 1), ("a", Value.vint 2),
        ("l", Value.vlist [Value.vint 3])] "a" ∧
     (1 : Nat) = 1 ∧ ["id", "a", "l"] = ["id", "a", "l"]) :=
  ⟨by rfl, by rfl,
    c9_plain_fields_frame
      { list_fields := ["l"], set_fields := [], dict_key_fields := [],
        dict_value_mappings := [] }
      { dict := [("id", Value.vint 1), ("a", Value.vint 2), ("l", Value.vlist [Value.vint 3])],
        fields_set := ["id", "a", "l"], inits := 1 }
      { dict := [("id", Value.vint 1), ("a", Value.vint 2),
          ("l", Value.vlist [Value.vint 3, Value.vint 4])],
        fields_set := ["id", "a", "l"], inits := 1 }
      [("id", Value.vint 1), ("a", Value.vint 9), ("l", Value.vint 4)] "a"
      (by rfl) (by rfl) (by decide) (by decide) (by decide) (by decide)⟩

/-- C2 counterexample.  The claim says a row with no `id` column is never
merged with any other row and yields its own singleton in arrival order.
But `RecordCombiningMapper.map_records` keys id-less rows by an integer
counter in the same dictionary as the row ids: on rows
`[{a: 1}, {id: 0, b: 2}]` the id-less first row is stored under counter
key `0`, and the second row's id `0` finds (`0 == 0`) and merges into that
supposed singleton — one combined record comes back instead of two. -/
theorem c2_counterexample :
    mapRecordsCombining
        [[("a", Value.vint 1)], [("id", Value.vint 0), ("b", Value.vint 2)]] =
      [[("id", Value.vint 0), ("a", Value.vint 1), ("b", Value.vint 2)]] ∧
    (mapRecordsCombining
        [[("a", Value.vint 1)], [("id", Value.vint 0), ("b", Value.vint 2)]]).length = 1 :=
  ⟨rfl, rfl⟩

/-- C2 amended.  Provided no row's `id` value is Python-equal to any of
the integer counter values `0, …, (#rows without id) - 1` that the mapper
hands out, a row without an `id` column is never merged with any other
row: the mapper's output is exactly the specification-side combine, in
which every id-less row becomes its own fresh singleton entry, id rows
merge only into id-tagged entries, and arrival order of first occurrences
is preserved. -/
theorem c2_no_id_rows_singletons (rows : List Row)
    (H : ∀ r ∈ rows, rowHas r "id" = true →
      ∀ m : Nat, m < noIdCount rows →
        pyEq (Value.vint m) ((rowGet? r "id").getD Value.vnone) = false) :
    mapRecordsCombining rows = (combineSpec rows).map Prod.snd :=
  combine_go_corr (noIdCount rows) rows [] [] 0 H (by omega) List.Forall₂.nil

/-- The hypothesis of the amended C2 holds on the witness input. -/
theorem c2_witness_hyp :
    ∀ r ∈ [[("id", Value.vstr ['u']), ("a", Value.vint 1)], [("b", Value.vint 2)]],
      rowHas r "id" = true →
      ∀ m : Nat, m < noIdCount [[("id", Value.vstr ['u']), ("a", Value.vint 1)], [("b", Value.vint 2)]] →
        pyEq (Value.vint m) ((rowGet? r "id").getD Value.vnone) = false := by
  intro r hr _ m hm
  have h1 : noIdCount [[("id", Value.vstr ['u']), ("a", Value.vint 1)],
      [("b", Value.vint 2)]] = 1 := rfl
  rw [h1] at hm
  have hm0 : m = 0 := by omega
  subst hm0
  simp only [List.mem_cons, List.not_mem_nil, or_false] at hr
  rcases hr with rfl | rfl <;> rfl

/-- Witness for the amended C2: string ids never collide with the counter. -/
theorem c2_no_id_rows_singletons_witness :
    (∀ r ∈ [[("id", Value.vstr ['u']), ("a", Value.vint 1)], [("b", Value.vint 2)]],
      rowHas r "id" = true →
      ∀ m : Nat, m < noIdCount [[("id", Value.vstr ['u']), ("a", Value.vint 1)], [("b", Value.vint 2)]] →
        pyEq (Value.vint m) ((rowGet? r "id").getD Value.vnone) = false) ∧
    mapRecordsCombining
        [[("id", Value.vstr ['u']), ("a", Value.vint 1)], [("b", Value.vint 2)]] =
      (combineSpec
        [[("id", Value.vstr ['u']), ("a", Value.vint 1)], [("b", Value.vint 2)]]).map Prod.snd :=
  ⟨c2_witness_hyp, c2_no_id_rows_singletons _ c2_witness_hyp⟩

/-- C1.  The claim says a query with several missing template keys raises a
single error naming all of them.  The code resets `missing_keys` inside the
per-match loop and raises there, so with both `in__column_a` and
`in__column_b` missing it raises naming only the first; the accumulator
list, the plural message and the repository's own test
`test_list_in_multiple_lists_all_missing` (which spells out both keys in
its expected match) show batching was the intent.  This theorem evaluates
the validator at the failing input: the error names only `in__column_a`
although `in__column_b` is also a template token of the query whose
parameter is missing. -/
theorem c1_missing_keys_first_fail :
    validateKeysCleanQuery
        "SELECT * FROM table WHERE \x7bin__column_a\x7d OR \x7bin__column_b\x7d".data
        none =
      .error (.listTemplateMissing ["in__column_a".data]) ∧
    (scan "SELECT * FROM table WHERE \x7bin__column_a\x7d OR \x7bin__column_b\x7d".data).map
        MatchT.key = ["in__column_a".data, "in__column_b".data] ∧
    tpMissing none "in__column_b".data = true ∧
    ["in__column_a".data] ≠ ["in__column_a".data, "in__column_b".data] :=
  ⟨by rfl, by rfl, by rfl, by decide⟩

/-- C5.  Expanding `"SELECT * FROM t WHERE {in__col}"` with
`template_params = {'in__col': [1, 2]}` returns exactly the text
`"SELECT * FROM t WHERE col IN ( :in__col_0, :in__col_1 ) "` (including
the single leading and trailing space around the fragment) and the
parameter map `{'in__col_0': 1, 'in__col_1': 2}`. -/
theorem c5_exact_expansion :
    getQueryData
        { query := "SELECT * FROM t WHERE \x7bin__col\x7d".data,
          template_params := some [("in__col".data, Value.vlist [Value.vint 1, Value.vint 2])] } =
      .ok ("SELECT * FROM t WHERE col IN ( :in__col_0, :in__col_1 ) ".data,
        [("in__col_0".data, Value.vint 1), ("in__col_1".data, Value.vint 2)]) := by
  rfl

/-- C6.  `in_column` on a falsy values argument (absent/`None`, empty
list/tuple, …) returns `("1 <> 1", None)` and `not_in_column` returns
`("1 = 1", None)`; neither raises. -/
theorem c6_empty_in_not_in (name : List Char) (legacy : Option (List Char))
    (multi : Bool) (v : Value) (h : truthy v = false) :
    TemplateGenerators.in_column name v legacy multi = .ok ("1 <> 1".data, none) ∧
    TemplateGenerators.not_in_column name v legacy multi = .ok ("1 = 1".data, none) := by
  constructor
  · simp [TemplateGenerators.in_column, h]
  · simp [TemplateGenerators.not_in_column, h]

/-- Witness for C6 at `values = []`. -/
theorem c6_empty_in_not_in_witness :
    truthy (Value.vlist []) = false ∧
    (TemplateGenerators.in_column "col".data (Value.vlist []) none false =
        .ok ("1 <> 1".data, none) ∧
     TemplateGenerators.not_in_column "col".data (Value.vlist []) none false =
        .ok ("1 = 1".data, none)) :=
  ⟨by decide, c6_empty_in_not_in "col".data none false (Value.vlist []) (by decide)⟩

/-- C7.  `TemplateGenerators.values` with an empty list or `None` raises
`ListTemplateException` (`'Must have values for {name} template'`); no SQL
fragment is produced for an empty `VALUES` expansion. -/
theorem c7_values_empty_raises (name : List Char) (legacy : Option (List Char)) :
    TemplateGenerators.values name (Value.vlist []) legacy =
      .error (.listTemplateMsg ("Must have values for ".data ++ name ++ " template".data)) ∧
    TemplateGenerators.values name Value.vnone legacy =
      .error (.listTemplateMsg ("Must have values for ".data ++ name ++ " template".data)) := by
  constructor
  · simp [TemplateGenerators.values, truthy]
  · simp [TemplateGenerators.values, truthy]

/-- C8.  `SingleRowMapper.map_records` (default record mapper) maps only
the first row into one record and returns immediately: the result on a
nonempty sequence is the mapping of the head alone and does not depend on
the remaining rows in any way (in particular not when they share the first
row's identity); the empty sequence maps to `None`. -/
theorem c8_single_row_first_only :
    mapRecordsSingleRow [] = none ∧
    ∀ (r : Row) (rest rest' : List Row),
      mapRecordsSingleRow (r :: rest) = some (dbMapRecord dbNew r) ∧
      mapRecordsSingleRow (r :: rest) = mapRecordsSingleRow (r :: rest') :=
  ⟨rfl, fun _ _ _ => ⟨rfl, rfl⟩⟩

/-- C10.  A `DbMapResult` constructed without a truthy `id` (absent key or
falsy value such as `None` or `0`) stores `id = None`, and `raw()` then
omits the `id` key entirely; duplicate-free kwargs keys model the Python
kwargs dict. -/
theorem c10_falsy_id_dropped (kwargs : DbRes)
    (hn : (kwargs.map Prod.fst).Nodup)
    (h : truthy ((aGet sEq kwargs "id").getD Value.vnone) = false) :
    aGet sEq (dbInit kwargs) "id" = some Value.vnone ∧
    ∃ r, dbRaw (dbInit kwargs) = .ok r ∧ aGet sEq r "id" = none := by
  have hd : dbInit kwargs = aSet sEq kwargs "id" Value.vnone := by
    simp [dbInit, h]
  have hget : aGet sEq (dbInit kwargs) "id" = some Value.vnone := by
    rw [hd]
    exact aGet_aSet_self sEq kwargs "id" Value.vnone (sEq_self "id")
  refine ⟨hget, aPop sEq (dbInit kwargs) "id", ?_, ?_⟩
  · simp [dbRaw, hget]
  · rw [hd]
    exact aGet_aPop_self _ _ (hd ▸ aSet_keys_nodup kwargs "id" Value.vnone hn)

/-- Witness for C10 at an explicitly supplied `id = 0`. -/
theorem c10_falsy_id_dropped_witness :
    ([("id", Value.vint 0), ("x", Value.vint 5)].map (Prod.fst (α := String) (β := Value))).Nodup ∧
    truthy ((aGet sEq [("id", Value.vint 0), ("x", Value.vint 5)] "id").getD Value.vnone) = false ∧
    (aGet sEq (dbInit [("id", Value.vint 0), ("x", Value.vint 5)]) "id" = some Value.vnone ∧
     ∃ r, dbRaw (dbInit [("id", Value.vint 0), ("x", Value.vint 5)]) = .ok r ∧
       aGet sEq r "id" = none) :=
  ⟨by decide, by rfl,
    c10_falsy_id_dropped [("id", Value.vint 0), ("x", Value.vint 5)] (by decide) (by rfl)⟩

end DySql
